import Mathlib

/-!
Verification development for the `stringwrap` Go package (file
`stringwrap.go`): a visual-width-aware line-wrapping engine.  The Go
source is embedded shallowly: strings are `List Char` of Unicode scalar
values, Go `int` arithmetic is `Int`, the mutable state machine
(`wrapStateMachine`) is explicit state passing, and the one recursive
procedure (`flushWordBuffer`) is given explicit fuel, so that
non-termination of the source is representable as `none` for every fuel.

External library dependencies of the source are modelled as follows:

* `github.com/mattn/go-runewidth` (`RuneWidth` / `StringWidth`):
  `runeWidth` below reproduces its classification on the repertoire
  exercised here (control characters are width 0, a table of
  East-Asian-wide / emoji ranges is width 2, everything else width 1).
* `github.com/rivo/uniseg` (extended grapheme cluster segmentation):
  `uniGraphemes` below segments a string into clusters.  On the
  repertoire exercised in this development every extended grapheme
  cluster is a single code point, so segmentation is per code point.
* `github.com/galactixx/ansiwalker` (`ANSIWalk`) / the ANSI regular
  expression `\x1b\[[0-9;]*[a-zA-Z]`: `ansiSplitOne` recognises one CSI
  escape sequence, `ansiRun` a maximal run of consecutive sequences,
  matching how the scan loop copies `str[idx:rIdx]` verbatim.
* Go `unicode.IsSpace`: `goIsSpace` is Go's `White_Space` table in full.
* Go `unicode.IsLetter/IsNumber/IsMark` (used by `isWordyGrapheme`):
  `isLetterNumberMark` reproduces the classification on the repertoire
  exercised here (ASCII alphanumerics and the CJK/Hangul/kana letter
  ranges); punctuation, spaces and NBSP are not letters/numbers/marks.
-/

namespace Stringwrap

/-- Models `go-runewidth`'s wide (2-column) ranges: East Asian Wide and
Fullwidth blocks and the emoji blocks exercised by the repository. -/
def isWideRune (n : Nat) : Bool :=
  (0x1100 ≤ n && n ≤ 0x115F) || (0x2E80 ≤ n && n ≤ 0x303E) ||
  (0x3041 ≤ n && n ≤ 0x33FF) || (0x3400 ≤ n && n ≤ 0x4DBF) ||
  (0x4E00 ≤ n && n ≤ 0x9FFF) || (0xA000 ≤ n && n ≤ 0xA4CF) ||
  (0xAC00 ≤ n && n ≤ 0xD7A3) || (0xF900 ≤ n && n ≤ 0xFAFF) ||
  (0xFE30 ≤ n && n ≤ 0xFE4F) || (0xFF00 ≤ n && n ≤ 0xFF60) ||
  (0xFFE0 ≤ n && n ≤ 0xFFE6) || (0x1F300 ≤ n && n ≤ 0x1F64F) ||
  (0x1F900 ≤ n && n ≤ 0x1F9FF) || (0x20000 ≤ n && n ≤ 0x2FFFD) ||
  (0x30000 ≤ n && n ≤ 0x3FFFD)

/-- Models `runewidth.RuneWidth`: 0 for control and zero-width
characters, 2 for East-Asian-wide/emoji ranges, 1 otherwise. -/
def runeWidth (c : Char) : Nat :=
  let n := c.toNat
  if n < 0x20 || (0x7F ≤ n && n ≤ 0x9F) then 0
  else if (0x0300 ≤ n && n ≤ 0x036F) || (0x200B ≤ n && n ≤ 0x200F) then 0
  else if isWideRune n then 2
  else 1

/-- Models `runewidth.StringWidth`: the sum of the rune widths. -/
def listWidth (l : List Char) : Nat := (l.map runeWidth).sum

/-- Go `len` of a string holding these runes (UTF-8 byte length). -/
def byteLen (l : List Char) : Nat := (l.map Char.utf8Size).sum

/-- Go `unicode.IsSpace`, i.e. Unicode `White_Space` (the exact table
used by Go: 0009-000D, 0020, 0085, 00A0, 1680, 2000-200A, 2028, 2029,
202F, 205F, 3000). -/
def goIsSpace (c : Char) : Bool :=
  let n := c.toNat
  (0x09 ≤ n && n ≤ 0x0D) || n == 0x20 || n == 0x85 || n == 0xA0 ||
  n == 0x1680 || (0x2000 ≤ n && n ≤ 0x200A) || n == 0x2028 ||
  n == 0x2029 || n == 0x202F || n == 0x205F || n == 0x3000

/-- Models `unicode.IsLetter || unicode.IsNumber || unicode.IsMark` on
the repertoire exercised here: ASCII alphanumerics, combining marks,
and the CJK/Hangul/kana letter ranges.  NBSP, hyphen and punctuation
are none of letter/number/mark. -/
def isLetterNumberMark (c : Char) : Bool :=
  let n := c.toNat
  (0x30 ≤ n && n ≤ 0x39) || (0x41 ≤ n && n ≤ 0x5A) ||
  (0x61 ≤ n && n ≤ 0x7A) || (0x0300 ≤ n && n ≤ 0x036F) ||
  (0x3041 ≤ n && n ≤ 0x30FF) || (0x3400 ≤ n && n ≤ 0x4DBF) ||
  (0x4E00 ≤ n && n ≤ 0x9FFF) || (0xAC00 ≤ n && n ≤ 0xD7A3)

/-- The non-breaking space U+00A0. -/
def nbspChar : Char := Char.ofNat 0xA0

/-- `strings.TrimRightFunc`: drop the longest suffix of runes
satisfying the predicate. -/
def trimRightFunc (p : Char → Bool) (l : List Char) : List Char :=
  (l.reverse.dropWhile p).reverse

/-- `bytes.Buffer.Next n` as used on the word buffer: drop the first
`n` bytes.  In the source `n` is always the byte length of a prefix of
whole clusters, so the drop always falls on a rune boundary; a cut that
would land inside a rune drops that whole rune. -/
def dropBytesList : List Char → Nat → List Char
  | l, 0 => l
  | [], _ + 1 => []
  | c :: l, n + 1 => dropBytesList l (n + 1 - c.utf8Size)

/-- `isWordyGrapheme` from the source: whether the first rune of the
cluster is a letter, number or mark (`utf8.DecodeRuneInString` of the
empty string yields `RuneError`, which is none of these). -/
def isWordyGrapheme (g : List Char) : Bool :=
  match g with
  | [] => false
  | c :: _ => isLetterNumberMark c

/-- `btoi` from the source. -/
def btoi (b : Bool) : Int := if b then 1 else 0

/-- Models `uniseg.NewGraphemes` / `uniseg.StepString` segmentation:
one cluster per code point on the exercised repertoire. -/
def uniGraphemes (l : List Char) : List (List Char) := l.map (fun c => [c])

/-- `LineOffset` from the source: a half-open interval. -/
structure LineOffset where
  Start : Int
  End : Int
deriving Repr, DecidableEq

/-- `WrappedString` from the source: per-output-line metadata. -/
structure WrappedString where
  CurLineNum : Int
  OrigLineNum : Int
  OrigByteOffset : LineOffset
  OrigRuneOffset : LineOffset
  SegmentInOrig : Int
  LastSegmentInOrig : Bool
  NotWithinLimit : Bool
  IsHardBreak : Bool
  Width : Int
  EndsWithSplitWord : Bool
deriving Repr, DecidableEq

/-- `WrappedStringSeq` from the source. -/
structure WrappedStringSeq where
  WrappedLines : List WrappedString
  WordSplitAllowed : Bool
  TabSize : Int
  Limit : Int
deriving Repr, DecidableEq

/-- `positions` from the source: the running counters. -/
structure Positions where
  curLineWidth : Int := 0
  curLineNum : Int := 0
  origLineNum : Int := 0
  curWordWidth : Int := 0
  origLineSegment : Int := 0
  origStartLineByte : Int := 0
  origStartLineRune : Int := 0
  timmedWhiteSpace : Int := 0
deriving Repr, DecidableEq

/-- `positions.endCalc` from the source. -/
def Positions.endCalc (p : Positions) (count lineCount : Int) (hardBreak : Bool) : Int :=
  count + lineCount - 1 + btoi hardBreak + p.timmedWhiteSpace

/-- `positions.endByte`: `lineCount` is Go `len(line)`, the byte length. -/
def Positions.endByte (p : Positions) (line : List Char) (hardBreak : Bool) :
    Int × LineOffset :=
  let endLine := p.endCalc p.origStartLineByte (byteLen line) hardBreak
  (endLine, { Start := p.origStartLineByte, End := endLine })

/-- `positions.endRune`: `lineCount` is `utf8.RuneCountInString(line)`. -/
def Positions.endRune (p : Positions) (line : List Char) (hardBreak : Bool) :
    Int × LineOffset :=
  let endLine := p.endCalc p.origStartLineRune (line.length) hardBreak
  (endLine, { Start := p.origStartLineRune, End := endLine })

/-- `positions.curWritePosition` from the source. -/
def Positions.curWritePosition (p : Positions) : Int := p.curWordWidth + p.curLineWidth

/-- `wordWrapConfig` from the source. -/
structure WordWrapConfig where
  limit : Int
  tabSize : Int
  trimWhitespace : Bool
  splitWord : Bool
deriving Repr, DecidableEq

/-- `wrapStateMachine` from the source: the line, word and output
buffers plus positions, output sequence and configuration. -/
structure WrapStateMachine where
  lineBuffer : List Char := []
  wordBuffer : List Char := []
  buffer : List Char := []
  pos : Positions := {}
  wrappedStringSeq : WrappedStringSeq
  config : WordWrapConfig
  wordHasNbsp : Bool := false
deriving Repr, DecidableEq

/-- `graphemeWordIter` from the source: state of the split scan. -/
structure GraphemeWordIter where
  subWordBuffer : List Char := []
  subWordWidth : Int := 0
  preLimitCluster : List Char := []
  cluster : List Char := []
deriving Repr, DecidableEq

/-- `graphemeWordIter.needsHyphen` from the source. -/
def GraphemeWordIter.needsHyphen (g : GraphemeWordIter) : Bool :=
  isWordyGrapheme g.cluster && isWordyGrapheme g.preLimitCluster

/-- `graphemeWordIter.iter` from the source: fetch the next cluster and
keep accumulating while the width gathered so far stays strictly below
the limit; the buffer written lags one cluster behind the fetch. -/
def graphemeIterLoop (lineWidth limit : Int) :
    List (List Char) → GraphemeWordIter → GraphemeWordIter
  | [], g => g
  | c :: rest, g =>
    if g.subWordWidth + lineWidth < limit then
      graphemeIterLoop lineWidth limit rest
        { subWordBuffer := g.subWordBuffer ++ g.cluster
          subWordWidth := g.subWordWidth + (listWidth c : Int)
          preLimitCluster := g.cluster
          cluster := c }
    else g

/-- `wrapStateMachine.writeANSIToLine`. -/
def WrapStateMachine.writeANSIToLine (w : WrapStateMachine) (s : List Char) :
    WrapStateMachine :=
  { w with lineBuffer := w.lineBuffer ++ s }

/-- `wrapStateMachine.writeLine` from the source: optionally trim
trailing whitespace (accounting the trimmed width), append the line and
a newline to the output buffer, compute this segment's end offsets,
append the `WrappedString` record, and advance the counters. -/
def WrapStateMachine.writeLine (w : WrapStateMachine) (hardBreak endsSplit : Bool) :
    WrapStateMachine :=
  let pr :=
    if w.config.trimWhitespace then
      let t := trimRightFunc goIsSpace w.lineBuffer
      let trimWidth : Int := listWidth t
      (t, { w.pos with
              timmedWhiteSpace := w.pos.timmedWhiteSpace + w.pos.curLineWidth - trimWidth
              curLineWidth := trimWidth })
    else (w.lineBuffer, w.pos)
  let newLine := pr.1 ++ ['\n']
  let pos2 := { pr.2 with origLineSegment := pr.2.origLineSegment + 1 }
  let eb := pos2.endByte newLine hardBreak
  let er := pos2.endRune newLine hardBreak
  let ws : WrappedString :=
    { OrigLineNum := pos2.origLineNum
      CurLineNum := pos2.curLineNum
      OrigByteOffset := eb.2
      OrigRuneOffset := er.2
      SegmentInOrig := pos2.origLineSegment
      LastSegmentInOrig := hardBreak
      NotWithinLimit := decide (pos2.curLineWidth > w.config.limit)
      IsHardBreak := hardBreak
      Width := pos2.curLineWidth
      EndsWithSplitWord := endsSplit }
  { w with
      lineBuffer := []
      buffer := w.buffer ++ newLine
      wrappedStringSeq :=
        { w.wrappedStringSeq with
            WrappedLines := w.wrappedStringSeq.WrappedLines ++ [ws] }
      pos :=
        { pos2 with
            curLineNum := pos2.curLineNum + 1
            origStartLineByte := eb.1
            origStartLineRune := er.1
            curLineWidth := 0
            timmedWhiteSpace := 0 } }

/-- `wrapStateMachine.writeHardLine`. -/
def WrapStateMachine.writeHardLine (w : WrapStateMachine) : WrapStateMachine :=
  w.writeLine true false

/-- `wrapStateMachine.writeSoftLine`. -/
def WrapStateMachine.writeSoftLine (w : WrapStateMachine) (endsSplit : Bool) :
    WrapStateMachine :=
  w.writeLine false endsSplit

/-- `wrapStateMachine.writeWord`: move the word buffer onto the line
buffer and add its width to the line width. -/
def WrapStateMachine.writeWord (w : WrapStateMachine) : WrapStateMachine :=
  { w with
      lineBuffer := w.lineBuffer ++ w.wordBuffer
      wordBuffer := []
      pos := { w.pos with
                 curLineWidth := w.pos.curLineWidth + w.pos.curWordWidth
                 curWordWidth := 0 } }

/-- `wrapStateMachine.flushLineBuffer`: finalize the line as a soft
break if adding `length` more columns would exceed the limit. -/
def WrapStateMachine.flushLineBuffer (w : WrapStateMachine) (length : Int) :
    WrapStateMachine :=
  if w.pos.curLineWidth + length > w.config.limit then w.writeSoftLine false else w

/-- `wrapStateMachine.writeSpaceToLine`. -/
def WrapStateMachine.writeSpaceToLine (w : WrapStateMachine) (r : Char) :
    WrapStateMachine :=
  let w := w.flushLineBuffer 1
  if !w.config.trimWhitespace || w.pos.curLineWidth > 0 then
    { w with
        lineBuffer := w.lineBuffer ++ [r]
        pos := { w.pos with curLineWidth := w.pos.curLineWidth + 1 } }
  else
    { w with pos := { w.pos with timmedWhiteSpace := w.pos.timmedWhiteSpace + 1 } }

/-- `strings.Repeat " " n` (the argument is nonnegative in all
reachable states; a negative count is clamped to the empty string). -/
def repeatSpace (n : Int) : List Char := List.replicate n.toNat ' '

/-- `wrapStateMachine.writeTabToLine`: returns the number of columns
the tab contributed, and writes that many literal spaces. -/
def WrapStateMachine.writeTabToLine (w : WrapStateMachine) : Int × WrapStateMachine :=
  let adjTabSize := w.config.tabSize - w.pos.curLineWidth % w.config.tabSize
  let w := w.flushLineBuffer adjTabSize
  let pr : Int × WrapStateMachine :=
    if w.lineBuffer.length = 0 then
      if w.config.trimWhitespace then
        (0, { w with pos := { w.pos with timmedWhiteSpace := w.pos.timmedWhiteSpace + 1 } })
      else (w.config.tabSize, w)
    else (adjTabSize, w)
  (pr.1, { pr.2 with lineBuffer := pr.2.lineBuffer ++ repeatSpace pr.1 })

/-- `wrapStateMachine.flushWordBuffer` from the source, with explicit
fuel for its self-recursion in the split branch (the source recursion
is not structurally decreasing; `none` means the given fuel was
exhausted, so `(∀ fuel, … = none)` expresses non-termination). -/
def flushWordBufferF : Nat → WrapStateMachine → Option WrapStateMachine
  | 0, _ => none
  | fuel + 1, w =>
    let exceedsLimit := w.pos.curWritePosition > w.config.limit
    if exceedsLimit ∧ w.pos.curWordWidth = 0 then
      some (w.writeSoftLine false)
    else if exceedsLimit then
      if w.config.splitWord ∧ w.wordHasNbsp = false then
        let g := graphemeIterLoop w.pos.curLineWidth w.config.limit
          (uniGraphemes w.wordBuffer) {}
        let w1 := { w with
          lineBuffer := w.lineBuffer ++ g.subWordBuffer ++
            (if g.needsHyphen then ['-'] else [])
          pos := { w.pos with curLineWidth := w.pos.curLineWidth + g.subWordWidth } }
        let w2 := w1.writeSoftLine g.needsHyphen
        let w3 := { w2 with
          wordBuffer := dropBytesList w2.wordBuffer (byteLen g.subWordBuffer) }
        let w4 := { w3 with
          pos := { w3.pos with curWordWidth := (listWidth w3.wordBuffer : Int) } }
        match flushWordBufferF fuel w4 with
        | none => none
        | some w5 => some { w5 with wordHasNbsp := false }
      else
        let w1 := if w.pos.curLineWidth > 0 then w.writeSoftLine false else w
        some { w1.writeWord with wordHasNbsp := false }
    else
      some { w.writeWord with wordHasNbsp := false }

/-- One ANSI CSI escape sequence parameter scan: `[0-9;]*` then a final
letter, per the pattern `\x1b\[[0-9;]*[a-zA-Z]`. -/
def ansiScanParams : List Char → Option (List Char × Char × List Char)
  | [] => none
  | c :: rest =>
    if ('0' ≤ c ∧ c ≤ '9') ∨ c = ';' then
      match ansiScanParams rest with
      | some pfr => some (c :: pfr.1, pfr.2.1, pfr.2.2)
      | none => none
    else if ('a' ≤ c ∧ c ≤ 'z') ∨ ('A' ≤ c ∧ c ≤ 'Z') then some ([], c, rest)
    else none

/-- Recognise one ANSI CSI escape sequence at the head of the input;
returns the sequence and the remainder. -/
def ansiSplitOne (l : List Char) : Option (List Char × List Char) :=
  match l with
  | c1 :: c2 :: rest =>
    if c1 = '\x1b' ∧ c2 = '[' then
      match ansiScanParams rest with
      | some pfr => some (c1 :: c2 :: pfr.1 ++ [pfr.2.1], pfr.2.2)
      | none => none
    else none
  | _ => none

/-- Recursion core of `ansiRun`; the fuel is an upper bound on the
number of consecutive escape sequences, and `l.length` always
suffices, so `ansiRun` below is exactly the maximal-run scan. -/
def ansiRunAux : Nat → List Char → List Char × List Char
  | 0, l => ([], l)
  | n + 1, l =>
    match ansiSplitOne l with
    | none => ([], l)
    | some sr => (sr.1 ++ (ansiRunAux n sr.2).1, (ansiRunAux n sr.2).2)

/-- A maximal run of consecutive ANSI escape sequences at the head of
the input (models `ansiwalker.ANSIWalk` skipping to the next real rune,
with the skipped bytes copied verbatim by the scan loop). -/
def ansiRun (l : List Char) : List Char × List Char := ansiRunAux l.length l

/-- The per-rune scan loop of `stringWrap` (source lines 676-727): walk
the input; a run of ANSI escapes is flushed-then-copied verbatim; U+00A0
joins the word buffer and marks it; other whitespace first flushes the
word buffer and then space/newline/tab act on the line (all remaining
legacy whitespace is ignored); every other rune is a grapheme cluster
appended to the word buffer with its display width.  `fuel` bounds the
recursion depth of each `flushWordBuffer` call; `steps` is a structural
bound on the number of loop iterations — every iteration consumes at
least one rune, so `l.length` steps always complete the scan. -/
def wrapLoop (fuel : Nat) : Nat → List Char → WrapStateMachine → Option WrapStateMachine
  | 0, l, w => match l with | [] => some w | _ :: _ => none
  | steps + 1, l, w =>
    match l with
    | [] => some w
    | c :: rest =>
      if (ansiRun (c :: rest)).1 = [] then
        if c = nbspChar then
          wrapLoop fuel steps rest
            { w with
                wordHasNbsp := true
                wordBuffer := w.wordBuffer ++ [c]
                pos := { w.pos with curWordWidth := w.pos.curWordWidth + 1 } }
        else if goIsSpace c then
          match flushWordBufferF fuel w with
          | none => none
          | some w1 =>
            wrapLoop fuel steps rest
              (if c = ' ' then w1.writeSpaceToLine c
               else if c = '\n' then
                 let wh := w1.writeHardLine
                 { wh with pos := { wh.pos with
                     origLineNum := wh.pos.origLineNum + 1
                     origLineSegment := 0 } }
               else if c = '\t' then
                 let pt := w1.writeTabToLine
                 { pt.2 with pos := { pt.2.pos with
                     curLineWidth := pt.2.pos.curLineWidth + pt.1 } }
               else w1)
        else
          wrapLoop fuel steps rest
            { w with
                wordBuffer := w.wordBuffer ++ [c]
                pos := { w.pos with
                  curWordWidth := w.pos.curWordWidth + (runeWidth c : Int) } }
      else
        match flushWordBufferF fuel w with
        | none => none
        | some w1 =>
          wrapLoop fuel steps (ansiRun (c :: rest)).2
            (w1.writeANSIToLine (ansiRun (c :: rest)).1)

/-- Count of newline characters. -/
def countNL (l : List Char) : Nat := l.count '\n'

/-- `bytes.Buffer.Truncate(len-1)`: remove the last byte.  In every
reachable state the output buffer ends with the one-byte rune `'\n'`,
so removing the last byte removes the last rune. -/
def truncLastByte (l : List Char) : List Char := l.dropLast

/-- The write through `lastWrappedLine()` setting
`LastSegmentInOrig = true` on the final record. -/
def setLastSegTrue : List WrappedString → List WrappedString
  | [] => []
  | [x] => [{ x with LastSegmentInOrig := true }]
  | x :: y :: xs => x :: setLastSegTrue (y :: xs)

/-- Outcome of a call: a normal return, the `limit < 2` error return
(`errors.New "limit must be greater than one"` with empty text and nil
metadata), or the runtime panic of indexing `WrappedLines[len-1]` on an
empty slice in `lastWrappedLine`. -/
inductive WrapOutcome
  | ok (text : String) (seq : WrappedStringSeq)
  | invalidLimit
  | panicked
deriving Repr, DecidableEq

/-- The output-shape correction at the end of `stringWrap` (source
lines 735-741): read the last record through `lastWrappedLine()` (a
panic when no record was ever appended), and when it is not a hard
break remove the trailing newline byte from the output and set its
`LastSegmentInOrig`. -/
def outputCorrection (w2 : WrapStateMachine) : WrapOutcome :=
  match w2.wrappedStringSeq.WrappedLines.getLast? with
  | none => WrapOutcome.panicked
  | some lastRec =>
    if lastRec.IsHardBreak then
      WrapOutcome.ok (String.mk w2.buffer) w2.wrappedStringSeq
    else
      WrapOutcome.ok (String.mk (truncLastByte w2.buffer))
        { w2.wrappedStringSeq with
            WrappedLines := setLastSegTrue w2.wrappedStringSeq.WrappedLines }

/-- The tail of `stringWrap` (source lines 729-741): after the scan
loop, flush the remaining word, finalize a still-buffered line as a
soft break, and apply the output-shape correction. -/
def finishWrap (fuel : Nat) (w : WrapStateMachine) : Option WrapOutcome :=
  match flushWordBufferF fuel w with
  | none => none
  | some w1 =>
    some (outputCorrection
      (if w1.lineBuffer.length > 0 then w1.writeSoftLine false else w1))

/-- The fresh per-invocation state built by `stringWrap` (source lines
652-674). -/
def initMachine (limit tabSize : Int) (trimWhitespace splitWord : Bool) :
    WrapStateMachine :=
  { pos := { curLineNum := 1, origLineNum := 1 }
    wrappedStringSeq :=
      { WrappedLines := []
        WordSplitAllowed := splitWord
        TabSize := tabSize
        Limit := limit }
    config :=
      { limit := limit
        tabSize := tabSize
        trimWhitespace := trimWhitespace
        splitWord := splitWord } }

/-- `stringWrap` from the source: validate the limit, build the fresh
state, run the scan loop, and finish with the final flush and the
output-shape correction.  `none` means the fuel given to the
word-flush recursion ran out. -/
def stringWrapF (fuel : Nat) (str : String) (limit tabSize : Int)
    (trimWhitespace splitWord : Bool) : Option WrapOutcome :=
  if limit < 2 then some WrapOutcome.invalidLimit
  else
    match wrapLoop fuel str.data.length str.data
        (initMachine limit tabSize trimWhitespace splitWord) with
    | none => none
    | some w => finishWrap fuel w

/-- The machine state right before the output-shape correction: the
scan loop, the final word flush, and the conditional final soft line
of `stringWrap` (source lines 676-733).  `stringWrapF` is this state
followed by `outputCorrection`. -/
def scanMachine (fuel : Nat) (str : String) (limit tabSize : Int)
    (trimWhitespace splitWord : Bool) : Option WrapStateMachine :=
  match wrapLoop fuel str.data.length str.data
      (initMachine limit tabSize trimWhitespace splitWord) with
  | none => none
  | some w =>
    match flushWordBufferF fuel w with
    | none => none
    | some w1 =>
      some (if w1.lineBuffer.length > 0 then w1.writeSoftLine false else w1)

/-- `StringWrap` from the source: word splitting disabled. -/
def StringWrap (fuel : Nat) (str : String) (limit tabSize : Int)
    (trimWhitespace : Bool) : Option WrapOutcome :=
  stringWrapF fuel str limit tabSize trimWhitespace false

/-- `StringWrapSplit` from the source: word splitting enabled. -/
def StringWrapSplit (fuel : Nat) (str : String) (limit tabSize : Int)
    (trimWhitespace : Bool) : Option WrapOutcome :=
  stringWrapF fuel str limit tabSize trimWhitespace true

/-! ### Helper predicates used by the claims -/

/-- Whether the last record of the sequence is a hard break (`false`
for an empty sequence). -/
def lastIsHard (q : WrappedStringSeq) : Bool :=
  match q.WrappedLines.getLast? with
  | some r => r.IsHardBreak
  | none => false

/-- Both offset intervals of a record are well ordered: `Start ≤ End`. -/
def recordOffsetsOk (r : WrappedString) : Bool :=
  decide (r.OrigByteOffset.Start ≤ r.OrigByteOffset.End) &&
  decide (r.OrigRuneOffset.Start ≤ r.OrigRuneOffset.End)

/-- Byte and rune offsets (both endpoints) are non-decreasing across
successive records. -/
def offsetsMonotone : List WrappedString → Bool
  | [] => true
  | [_] => true
  | a :: b :: rest =>
    decide (a.OrigByteOffset.Start ≤ b.OrigByteOffset.Start) &&
    decide (a.OrigByteOffset.End ≤ b.OrigByteOffset.End) &&
    decide (a.OrigRuneOffset.Start ≤ b.OrigRuneOffset.Start) &&
    decide (a.OrigRuneOffset.End ≤ b.OrigRuneOffset.End) &&
    offsetsMonotone (b :: rest)

/-- The records tile the offsets: the first starts at `(sb, sr)` and
each subsequent record starts where the previous one ended, in both
byte and rune units. -/
def contiguousFrom (sb sr : Int) : List WrappedString → Bool
  | [] => true
  | r :: rest =>
    decide (r.OrigByteOffset.Start = sb) && decide (r.OrigRuneOffset.Start = sr) &&
    contiguousFrom r.OrigByteOffset.End r.OrigRuneOffset.End rest

/-! ### Concrete inputs and expected results used by the claims -/

def newlineStr : String := "\n"

def inputFox : String := "The quick brown fox jumps over the lazy dog"

def inputC4 : String := "hello\tworld"

def textC4 : String := "hello\nworld"

def recC4a : WrappedString :=
  { CurLineNum := 1
    OrigLineNum := 1
    OrigByteOffset := { Start := 0, End := 5 }
    OrigRuneOffset := { Start := 0, End := 5 }
    SegmentInOrig := 1
    LastSegmentInOrig := false
    NotWithinLimit := false
    IsHardBreak := false
    Width := 5
    EndsWithSplitWord := false }

def recC4b : WrappedString :=
  { CurLineNum := 2
    OrigLineNum := 1
    OrigByteOffset := { Start := 5, End := 11 }
    OrigRuneOffset := { Start := 5, End := 11 }
    SegmentInOrig := 2
    LastSegmentInOrig := true
    NotWithinLimit := false
    IsHardBreak := false
    Width := 5
    EndsWithSplitWord := false }

def seqC4 : WrappedStringSeq :=
  { WrappedLines := [recC4a, recC4b]
    WordSplitAllowed := false
    TabSize := 4
    Limit := 7 }

def inputC9 : String := "Supercalifragilisticexpialidocious"

def textC9 : String := "Supercali-\nfragilist-\nicexpiali-\ndocious"

def recC9 (i wid : Int) (lastSeg endsSplit : Bool) : WrappedString :=
  { CurLineNum := i
    OrigLineNum := 1
    OrigByteOffset := { Start := (i - 1) * 10, End := (i - 1) * 10 + wid }
    OrigRuneOffset := { Start := (i - 1) * 10, End := (i - 1) * 10 + wid }
    SegmentInOrig := i
    LastSegmentInOrig := lastSeg
    NotWithinLimit := false
    IsHardBreak := false
    Width := wid
    EndsWithSplitWord := endsSplit }

def seqC9 : WrappedStringSeq :=
  { WrappedLines :=
      [recC9 1 10 false true, recC9 2 10 false true,
       recC9 3 10 false true, recC9 4 7 true false]
    WordSplitAllowed := true
    TabSize := 4
    Limit := 10 }

def inputC1 : String := "a\n"

def recC1 : WrappedString :=
  { CurLineNum := 1
    OrigLineNum := 1
    OrigByteOffset := { Start := 0, End := 2 }
    OrigRuneOffset := { Start := 0, End := 2 }
    SegmentInOrig := 1
    LastSegmentInOrig := true
    NotWithinLimit := false
    IsHardBreak := true
    Width := 1
    EndsWithSplitWord := false }

def seqC1 : WrappedStringSeq :=
  { WrappedLines := [recC1]
    WordSplitAllowed := false
    TabSize := 4
    Limit := 5 }

/-- The input of the C6 counterexample: `a`, `b`, a space, then a
non-breaking space U+00A0 (the NBSP joins the word buffer, reaches the
line buffer whole, and is then trimmed away, leaving a final soft line
whose content is empty). -/
def inputC6 : String := "ab \u00A0"

def recC6a : WrappedString :=
  { CurLineNum := 1
    OrigLineNum := 1
    OrigByteOffset := { Start := 0, End := 2 }
    OrigRuneOffset := { Start := 0, End := 2 }
    SegmentInOrig := 1
    LastSegmentInOrig := false
    NotWithinLimit := false
    IsHardBreak := false
    Width := 2
    EndsWithSplitWord := false }

def recC6b : WrappedString :=
  { CurLineNum := 2
    OrigLineNum := 1
    OrigByteOffset := { Start := 2, End := 4 }
    OrigRuneOffset := { Start := 2, End := 4 }
    SegmentInOrig := 2
    LastSegmentInOrig := true
    NotWithinLimit := false
    IsHardBreak := false
    Width := 0
    EndsWithSplitWord := false }

def seqC6 : WrappedStringSeq :=
  { WrappedLines := [recC6a, recC6b]
    WordSplitAllowed := false
    TabSize := 4
    Limit := 2 }

/-- The input of the C2 non-termination witness: two copies of the
width-2 CJK cluster U+4E16. -/
def inputC2 : String := "\u4E16\u4E16"

/-- Split a character list on newline characters (used to phrase
"one record per output line"). -/
def splitNL : List Char → List (List Char)
  | [] => [[]]
  | c :: rest =>
    let r := splitNL rest
    if c = '\n' then [] :: r
    else
      match r with
      | [] => [[c]]
      | x :: xs => (c :: x) :: xs

def inputEmpty : String := ""

def textC6 : String := "ab\n"

/-- The state of the wrap machine after scanning `inputC2` with limit 2
and word splitting on: the whole input is one buffered word of width 4,
nothing has been flushed yet. -/
def machineC2 : WrapStateMachine :=
  { lineBuffer := []
    wordBuffer := inputC2.data
    buffer := []
    pos :=
      { curLineWidth := 0
        curLineNum := 1
        origLineNum := 1
        curWordWidth := 4
        origLineSegment := 0
        origStartLineByte := 0
        origStartLineRune := 0
        timmedWhiteSpace := 0 }
    wrappedStringSeq :=
      { WrappedLines := [], WordSplitAllowed := true, TabSize := 4, Limit := 2 }
    config := { limit := 2, tabSize := 4, trimWhitespace := true, splitWord := true }
    wordHasNbsp := false }

/-- The pair of end offsets (byte, rune) of the last record, or the
given default when the list is empty. -/
def endsAt : List WrappedString → Int × Int → Int × Int
  | [], d => d
  | r :: rest, _ => endsAt rest (r.OrigByteOffset.End, r.OrigRuneOffset.End)

/-- The only whitespace runes that can reach the line or word buffers
are the plain space (written by the space and tab handlers) and the
non-breaking space (carried inside words); both are one column wide
and survive as the trimmable suffix. -/
def spaceCharOk (c : Char) : Prop := goIsSpace c = true → c = ' ' ∨ c = nbspChar

/-- A rune of an ANSI escape sequence: never whitespace, and at most
one column wide under `runeWidth` (ESC itself is width 0). -/
def ansiCharOk (c : Char) : Prop := goIsSpace c = false ∧ runeWidth c ≤ 1

/-- The state invariant of the wrap machine, maintained by every
operation of the scan loop.  It ties the tracked counters to the
buffers and the emitted records:
* `wordW`: `curWordWidth` is exactly the display width of the word buffer;
* `lineNonneg`/`timmedNonneg`: the tracked line width and the trimmed
  accumulator never go negative;
* `lineW`: the display width of the line buffer exceeds the tracked
  line width by at most the buffer's rune count (ANSI runes contribute
  at most one column each and are not tracked);
* `lineChars`/`wordChars`: whitespace inside the buffers is only the
  plain or non-breaking space, each exactly one column;
* `recsOk`/`chain`/`startEnds`: every emitted record has `Start ≤ End`
  in both units, records tile the offsets from zero, and the position
  tracker's start-of-next-segment offsets sit at the last record's end;
* `nlCount`/`bufEnds`: the output buffer holds one newline per record
  and ends with a newline when nonempty. -/
structure MachInv (w : WrapStateMachine) : Prop where
  wordW : w.pos.curWordWidth = (listWidth w.wordBuffer : Int)
  lineNonneg : 0 ≤ w.pos.curLineWidth
  lineW : (listWidth w.lineBuffer : Int) ≤ w.pos.curLineWidth + w.lineBuffer.length
  timmedNonneg : 0 ≤ w.pos.timmedWhiteSpace
  lineChars : ∀ c ∈ w.lineBuffer, spaceCharOk c
  wordChars : ∀ c ∈ w.wordBuffer, spaceCharOk c
  recsOk : ∀ r ∈ w.wrappedStringSeq.WrappedLines, recordOffsetsOk r = true
  chain : contiguousFrom 0 0 w.wrappedStringSeq.WrappedLines = true
  startEnds : endsAt w.wrappedStringSeq.WrappedLines (0, 0) =
    (w.pos.origStartLineByte, w.pos.origStartLineRune)
  nlCount : countNL w.buffer = w.wrappedStringSeq.WrappedLines.length
  bufEnds : w.buffer = [] ∨ w.buffer.getLast? = some '\n'

/-- A machine state carrying a marked (U+00A0-containing) word of
width 3 on a line of width 1 at limit 2, with splitting globally
enabled: the configuration under which an unmarked word would be
mid-word split. -/
def machineC5 : WrapStateMachine :=
  { lineBuffer := ['a']
    wordBuffer := ['b', nbspChar, 'c']
    buffer := []
    pos :=
      { curLineWidth := 1
        curLineNum := 1
        origLineNum := 1
        curWordWidth := 3
        origLineSegment := 0
        origStartLineByte := 0
        origStartLineRune := 0
        timmedWhiteSpace := 0 }
    wrappedStringSeq :=
      { WrappedLines := [], WordSplitAllowed := true, TabSize := 4, Limit := 2 }
    config := { limit := 2, tabSize := 4, trimWhitespace := true, splitWord := true }
    wordHasNbsp := true }

/-! ### Lemmas about the ANSI escape scanner -/

theorem ansiScanParams_decomp (l : List Char) (ps : List Char) (f : Char)
    (r : List Char) (h : ansiScanParams l = some (ps, f, r)) :
    l = ps ++ f :: r := by
  induction l generalizing ps with
  | nil => simp [ansiScanParams] at h
  | cons c rest ih =>
    rw [ansiScanParams] at h
    split at h
    · cases hrec : ansiScanParams rest with
      | none => rw [hrec] at h; simp at h
      | some pfr =>
        rw [hrec] at h
        simp only [Option.some.injEq, Prod.mk.injEq] at h
        obtain ⟨h1, h2, h3⟩ := h
        subst h1 h2 h3
        simpa using ih pfr.1 hrec
    · split at h
      · simp only [Option.some.injEq, Prod.mk.injEq] at h
        obtain ⟨h1, h2, h3⟩ := h
        subst h1 h2 h3
        simp
      · simp at h

theorem ansiSplitOne_nil : ansiSplitOne [] = none := rfl

theorem ansiSplitOne_single (c : Char) : ansiSplitOne [c] = none := rfl

theorem ansiSplitOne_cons (c1 c2 : Char) (rest : List Char) :
    ansiSplitOne (c1 :: c2 :: rest) =
      if c1 = '\x1b' ∧ c2 = '[' then
        match ansiScanParams rest with
        | some pfr => some (c1 :: c2 :: pfr.1 ++ [pfr.2.1], pfr.2.2)
        | none => none
      else none := rfl

theorem ansiSplitOne_decomp (l s r : List Char)
    (h : ansiSplitOne l = some (s, r)) :
    l = s ++ r ∧ s ≠ [] := by
  match l with
  | [] => rw [ansiSplitOne_nil] at h; exact Option.noConfusion h
  | [c1] => rw [ansiSplitOne_single] at h; exact Option.noConfusion h
  | c1 :: c2 :: rest =>
    rw [ansiSplitOne_cons] at h
    split at h
    · cases hps : ansiScanParams rest with
      | none => rw [hps] at h; exact Option.noConfusion h
      | some pfr =>
        rw [hps] at h
        simp only [Option.some.injEq, Prod.mk.injEq] at h
        obtain ⟨h1, h2⟩ := h
        subst h1 h2
        have := ansiScanParams_decomp rest pfr.1 pfr.2.1 pfr.2.2 (by simpa using hps)
        constructor
        · simp [this]
        · simp
    · exact Option.noConfusion h

theorem ansiSplitOne_shorter (l s r : List Char)
    (h : ansiSplitOne l = some (s, r)) : r.length < l.length := by
  obtain ⟨hdec, hne⟩ := ansiSplitOne_decomp l s r h
  subst hdec
  have : 0 < s.length := List.length_pos.mpr hne
  simp only [List.length_append]
  omega

theorem ansiRunAux_succ (n : Nat) (l : List Char) :
    ansiRunAux (n + 1) l =
      match ansiSplitOne l with
      | none => ([], l)
      | some sr => (sr.1 ++ (ansiRunAux n sr.2).1, (ansiRunAux n sr.2).2) := rfl

theorem ansiRunAux_succ_none (n : Nat) (l : List Char)
    (h : ansiSplitOne l = none) : ansiRunAux (n + 1) l = ([], l) := by
  rw [ansiRunAux_succ, h]

theorem ansiRunAux_succ_some (n : Nat) (l s r : List Char)
    (h : ansiSplitOne l = some (s, r)) :
    ansiRunAux (n + 1) l = (s ++ (ansiRunAux n r).1, (ansiRunAux n r).2) := by
  rw [ansiRunAux_succ, h]

theorem ansiRunAux_rest_le (n : Nat) (l : List Char) :
    (ansiRunAux n l).2.length ≤ l.length := by
  induction n generalizing l with
  | zero => simp [ansiRunAux]
  | succ n ih =>
    cases hs : ansiSplitOne l with
    | none => rw [ansiRunAux_succ_none n l hs]
    | some sr =>
      obtain ⟨s, r⟩ := sr
      rw [ansiRunAux_succ_some n l s r hs]
      dsimp only
      have h1 := ansiSplitOne_shorter l s r hs
      have h2 := ih r
      omega

theorem ansiRun_rest_shorter (l : List Char) (h : (ansiRun l).1 ≠ []) :
    (ansiRun l).2.length < l.length := by
  rw [ansiRun] at h ⊢
  cases hn : l.length with
  | zero =>
    rw [hn] at h
    simp [ansiRunAux] at h
  | succ n =>
    rw [hn] at h
    cases hs : ansiSplitOne l with
    | none => rw [ansiRunAux_succ_none n l hs] at h; simp at h
    | some sr =>
      obtain ⟨s, r⟩ := sr
      rw [ansiRunAux_succ_some n l s r hs]
      dsimp only
      have h1 := ansiSplitOne_shorter l s r hs
      have h2 := ansiRunAux_rest_le n r
      omega


/-! ### Non-termination of the word-split flush on `inputC2` -/

/-- On a word whose first grapheme cluster alone reaches the limit at
the start of a fresh line, `graphemeWordIter.iter` stops before writing
anything (its buffer lags one cluster behind the fetch), so the split
pass consumes an empty prefix: the word buffer does not shrink, the
recursion re-enters the same configuration, and `flushWordBuffer`
never returns, whatever the fuel. -/
theorem flushWordBufferF_C2_none (n : Nat) : ∀ (w : WrapStateMachine),
    w.wordBuffer = inputC2.data → w.pos.curLineWidth = 0 →
    w.pos.curWordWidth = 4 → w.config.limit = 2 →
    w.config.splitWord = true → w.wordHasNbsp = false →
    flushWordBufferF n w = none := by
  induction n with
  | zero => intro w _ _ _ _ _ _; rfl
  | succ n ih =>
    intro w hw hclw hcww hlim hsplit hnb
    rw [flushWordBufferF]
    simp only [Positions.curWritePosition, hw, hclw, hcww, hlim, hsplit, hnb]
    norm_num
    rw [ih]
    · rfl
    · rfl
    · rfl
    · exact hlim
    · exact hsplit
    · rfl

/-- C2: the claim's termination argument fails on the code.  With word
splitting enabled, input `"世世"` (two width-2 clusters) and limit 2,
the split pass moves an empty prefix and leaves the word buffer
unchanged, so the call never returns: for every fuel the model yields
`none`. -/
theorem C2_split_flush_diverges :
    ∀ n : Nat, StringWrapSplit n inputC2 2 4 true = none := by
  intro n
  have h1 : StringWrapSplit n inputC2 2 4 true = finishWrap n machineC2 := rfl
  rw [h1, finishWrap, flushWordBufferF_C2_none n machineC2 rfl rfl rfl rfl rfl rfl]


/-! ### Concrete-scenario claims -/

/-- C10: the claim that the last-record access in the post-scan
correction is always in bounds — and that the empty input returns
normally — is contradicted by the code: on the empty string no record
is ever appended, and `lastWrappedLine()` indexes `WrappedLines[-1]`,
a runtime panic. -/
theorem C10_empty_input_panics :
    StringWrap 16 inputEmpty 5 4 true = some WrapOutcome.panicked := rfl

/-- C9: `StringWrapSplit` on the 34-letter word with limit 10 yields
exactly the four expected lines, the first three records marked
`EndsWithSplitWord`. -/
theorem C9_supercali_split :
    StringWrapSplit 40 inputC9 10 4 true = some (WrapOutcome.ok textC9 seqC9) ∧
    seqC9.WrappedLines.map WrappedString.EndsWithSplitWord =
      [true, true, true, false] ∧
    seqC9.WrappedLines.length = 4 := by
  refine ⟨?_, by decide, by decide⟩
  rfl

/-- C4 counterexample: on `"hello\tworld"` with limit 7, tab size 4,
trimming on and splitting off, the output is `"hello\nworld"`: its two
lines are `hello` and `world` and no character of the output is a
space, so no output line holds the expanded tab region (the claim said
the expanded tab region lands on its own output line). -/
theorem C4_tab_counterexample :
    StringWrap 20 inputC4 7 4 true = some (WrapOutcome.ok textC4 seqC4) ∧
    splitNL textC4.data = [['h', 'e', 'l', 'l', 'o'], ['w', 'o', 'r', 'l', 'd']] ∧
    textC4.data.all (fun c => !(c == ' ')) = true := by
  refine ⟨?_, by decide, by decide⟩
  rfl

/-- C4 amended: the tab does force the width break — `hello` is
finalized before the tab is written, and the tab expansion moves
atomically to the fresh line — but there, with trimming enabled and
the line empty, it is suppressed to zero columns, so the output is
`"hello\nworld"` with two soft-break records of width 5. -/
theorem C4_tab_amended :
    StringWrap 20 inputC4 7 4 true = some (WrapOutcome.ok textC4 seqC4) ∧
    seqC4.WrappedLines.map WrappedString.IsHardBreak = [false, false] ∧
    seqC4.WrappedLines.map WrappedString.Width = [5, 5] := by
  refine ⟨?_, by decide, by decide⟩
  rfl

/-- C1 counterexample: on input `"a\n"` the call returns successfully
with one metadata record, but the output text `"a\n"` contains one
newline, so the claimed identity `records = newlines + 1` fails (a
trailing hard break keeps its newline, and splitting the output on
newline then yields one more piece than there are records). -/
theorem C1_count_counterexample :
    StringWrap 10 inputC1 5 4 true = some (WrapOutcome.ok inputC1 seqC1) ∧
    seqC1.WrappedLines.length = 1 ∧ countNL inputC1.data = 1 ∧
    seqC1.WrappedLines.length ≠ countNL inputC1.data + 1 := by
  refine ⟨?_, by decide, by decide, by decide⟩
  rfl

/-- C6 counterexample: on input `"ab \u00A0"` with limit 2 and
trimming, the final soft line's content trims to nothing, so after the
correction removes one newline the output `"ab\n"` still ends with a
newline although its last record is not a hard break — refuting the
claimed "ends with newline iff hard break" equivalence. -/
theorem C6_counterexample :
    StringWrap 20 inputC6 2 4 true = some (WrapOutcome.ok textC6 seqC6) ∧
    textC6.data.getLast? = some '\n' ∧
    lastIsHard seqC6 = false := by
  refine ⟨?_, by decide, by decide⟩
  rfl


/-! ### Width and byte-length facts -/

theorem listWidth_append (a b : List Char) :
    listWidth (a ++ b) = listWidth a + listWidth b := by
  simp [listWidth]

theorem byteLen_append (a b : List Char) :
    byteLen (a ++ b) = byteLen a + byteLen b := by
  simp [byteLen]

theorem countNL_append (a b : List Char) :
    countNL (a ++ b) = countNL a + countNL b := by
  simp [countNL, List.count_append]

theorem isWideRune_ge (n : Nat) (h : isWideRune n = true) : 0x1100 ≤ n := by
  simp only [isWideRune, Bool.or_eq_true, Bool.and_eq_true, decide_eq_true_eq] at h
  omega

theorem three_le_utf8Size (c : Char) (h : 0x800 ≤ c.toNat) : 3 ≤ c.utf8Size := by
  have hv : c.val.toNat = c.toNat := rfl
  unfold Char.utf8Size
  dsimp only
  split
  · next hle =>
    rw [UInt32.le_def, BitVec.le_def] at hle
    exfalso
    have h127 : c.val.toNat ≤ 127 := hle
    omega
  · split
    · next hle =>
      rw [UInt32.le_def, BitVec.le_def] at hle
      exfalso
      have h2047 : c.val.toNat ≤ 2047 := hle
      omega
    · split
      · omega
      · omega

theorem runeWidth_le_utf8Size (c : Char) : runeWidth c ≤ c.utf8Size := by
  unfold runeWidth
  dsimp only
  split
  · exact Nat.zero_le _
  · split
    · exact Nat.zero_le _
    · split
      · next hwide =>
        have h1 := isWideRune_ge c.toNat hwide
        have h2 := three_le_utf8Size c (by omega)
        omega
      · exact Char.utf8Size_pos c

theorem listWidth_le_byteLen (l : List Char) : listWidth l ≤ byteLen l := by
  induction l with
  | nil => simp [listWidth, byteLen]
  | cons c rest ih =>
    have h1 := runeWidth_le_utf8Size c
    simp only [listWidth, byteLen, List.map_cons, List.sum_cons] at *
    omega

theorem spaceCharOk_width (c : Char) (hc : spaceCharOk c) (hs : goIsSpace c = true) :
    runeWidth c = 1 := by
  rcases hc hs with h | h <;> subst h <;> decide

theorem spaceCharOk_ne_nl (c : Char) (hc : spaceCharOk c) : c ≠ '\n' := by
  intro h
  subst h
  rcases hc (by decide) with h | h <;> simp [nbspChar, Char.ofNat] at h

/-! ### Trimming -/

theorem trimRightFunc_decomp (p : Char → Bool) (l : List Char) :
    ∃ d, l = trimRightFunc p l ++ d ∧ ∀ c ∈ d, p c = true := by
  refine ⟨(l.reverse.takeWhile p).reverse, ?_, ?_⟩
  · rw [trimRightFunc, ← List.reverse_append, List.takeWhile_append_dropWhile,
      List.reverse_reverse]
  · intro c hc
    rw [List.mem_reverse] at hc
    exact List.mem_takeWhile_imp hc


/-! ### Chaining of record offsets -/

theorem contiguousFrom_append_one (l : List WrappedString) (r : WrappedString) :
    ∀ (sb sr : Int), contiguousFrom sb sr l = true →
    endsAt l (sb, sr) = (r.OrigByteOffset.Start, r.OrigRuneOffset.Start) →
    contiguousFrom sb sr (l ++ [r]) = true ∧
    endsAt (l ++ [r]) (sb, sr) = (r.OrigByteOffset.End, r.OrigRuneOffset.End) := by
  induction l with
  | nil =>
    intro sb sr _ he
    simp only [endsAt, Prod.mk.injEq] at he
    simp [contiguousFrom, endsAt, he.1, he.2]
  | cons x rest ih =>
    intro sb sr hc he
    simp only [contiguousFrom, Bool.and_eq_true, decide_eq_true_eq] at hc
    simp only [endsAt] at he
    obtain ⟨⟨hx1, hx2⟩, hrest⟩ := hc
    have := ih x.OrigByteOffset.End x.OrigRuneOffset.End hrest he
    constructor
    · simp only [List.cons_append, contiguousFrom, Bool.and_eq_true, decide_eq_true_eq]
      exact ⟨⟨hx1, hx2⟩, this.1⟩
    · simpa [endsAt] using this.2

theorem contiguousFrom_mono (l : List WrappedString) :
    ∀ (sb sr : Int), contiguousFrom sb sr l = true →
    (∀ r ∈ l, recordOffsetsOk r = true) → offsetsMonotone l = true := by
  induction l with
  | nil => intro sb sr _ _; rfl
  | cons a rest ih =>
    intro sb sr hc hr
    match rest with
    | [] => rfl
    | b :: rest2 =>
      simp only [contiguousFrom, Bool.and_eq_true, decide_eq_true_eq] at hc
      obtain ⟨⟨ha1, ha2⟩, ⟨hb1, hb2⟩, hrest⟩ := hc
      have hra := hr a (by simp)
      have hrb := hr b (by simp)
      simp only [recordOffsetsOk, Bool.and_eq_true, decide_eq_true_eq] at hra hrb
      have hmono := ih a.OrigByteOffset.End a.OrigRuneOffset.End
        (by simp only [contiguousFrom, Bool.and_eq_true, decide_eq_true_eq]
            exact ⟨⟨hb1, hb2⟩, hrest⟩)
        (fun r hrm => hr r (by simp [hrm]))
      simp only [offsetsMonotone, Bool.and_eq_true, decide_eq_true_eq]
      refine ⟨⟨⟨⟨?_, ?_⟩, ?_⟩, ?_⟩, hmono⟩ <;> omega

/-! ### The split-scan iterator -/

theorem graphemeIterLoop_width (lw lim : Int) (cs : List (List Char)) :
    ∀ g : GraphemeWordIter,
    g.subWordWidth = (listWidth g.subWordBuffer : Int) + (listWidth g.cluster : Int) →
    (graphemeIterLoop lw lim cs g).subWordWidth =
      (listWidth (graphemeIterLoop lw lim cs g).subWordBuffer : Int) +
      (listWidth (graphemeIterLoop lw lim cs g).cluster : Int) := by
  induction cs with
  | nil => intro g hg; exact hg
  | cons c rest ih =>
    intro g hg
    rw [graphemeIterLoop]
    split
    · apply ih
      simp only [listWidth_append]
      push_cast
      omega
    · exact hg

theorem graphemeIterLoop_mem (Q : Char → Prop) (lw lim : Int) (cs : List (List Char))
    (hcs : ∀ cl ∈ cs, ∀ c ∈ cl, Q c) :
    ∀ g : GraphemeWordIter, (∀ c ∈ g.subWordBuffer, Q c) → (∀ c ∈ g.cluster, Q c) →
    (∀ c ∈ (graphemeIterLoop lw lim cs g).subWordBuffer, Q c) ∧
    (∀ c ∈ (graphemeIterLoop lw lim cs g).cluster, Q c) := by
  induction cs with
  | nil => intro g h1 h2; exact ⟨h1, h2⟩
  | cons c rest ih =>
    intro g h1 h2
    rw [graphemeIterLoop]
    split
    · refine ih (fun cl hcl => hcs cl (by simp [hcl])) _ ?_ ?_
      · intro x hx
        rw [List.mem_append] at hx
        rcases hx with hx | hx
        · exact h1 x hx
        · exact h2 x hx
      · exact fun x hx => hcs c (by simp) x hx
    · exact ⟨h1, h2⟩

theorem dropBytesList_subset (l : List Char) :
    ∀ n, ∀ c ∈ dropBytesList l n, c ∈ l := by
  induction l with
  | nil => intro n c hc; cases n <;> simpa [dropBytesList] using hc
  | cons x rest ih =>
    intro n c hc
    match n with
    | 0 => exact hc
    | m + 1 =>
      rw [dropBytesList] at hc
      exact List.mem_cons_of_mem x (ih _ c hc)


/-! ### Preservation of the invariant by the machine operations -/

theorem listWidth_eq_length_of_ones (l : List Char)
    (h : ∀ c ∈ l, runeWidth c = 1) : listWidth l = l.length := by
  induction l with
  | nil => rfl
  | cons c rest ih =>
    simp only [listWidth, List.map_cons, List.sum_cons] at *
    rw [h c (by simp), ih (fun x hx => h x (by simp [hx]))]
    simp [Nat.add_comm]

theorem countNL_eq_zero (l : List Char) (h : ∀ c ∈ l, c ≠ '\n') :
    countNL l = 0 := by
  rw [countNL, List.count_eq_zero]
  intro hmem
  exact h _ hmem rfl

theorem writeLine_spec (w : WrapStateMachine) (hb es : Bool) (hinv : MachInv w) :
    MachInv (w.writeLine hb es) ∧
    ∃ ws, (w.writeLine hb es).wrappedStringSeq.WrappedLines =
        w.wrappedStringSeq.WrappedLines ++ [ws] ∧
      ws.IsHardBreak = hb ∧ ws.LastSegmentInOrig = hb := by
  obtain ⟨hwordW, hlineNonneg, hlineW, htimmedNonneg, hlineChars, hwordChars,
    hrecsOk, hchain, hstartEnds, hnlCount, hbufEnds⟩ := hinv
  obtain ⟨lineB, wordB, buf, pos, seq, cfg, nb⟩ := w
  obtain ⟨clw, cln, oln, cww, seg, sb, sr, tmw⟩ := pos
  obtain ⟨lines, wsplit, tbs, lim⟩ := seq
  obtain ⟨climit, ctab, ctrim, csplit⟩ := cfg
  dsimp only at *
  cases ctrim with
  | «true» =>
    obtain ⟨d, hdec, hd⟩ := trimRightFunc_decomp goIsSpace lineB
    have hdw : listWidth d = d.length := by
      apply listWidth_eq_length_of_ones
      intro c hc
      exact spaceCharOk_width c (hlineChars c (by rw [hdec]; simp [hc])) (hd c hc)
    have htW : (listWidth (trimRightFunc goIsSpace lineB) : Int) ≤
        clw + (trimRightFunc goIsSpace lineB).length := by
      have h1 : listWidth lineB = listWidth (trimRightFunc goIsSpace lineB) + listWidth d := by
        conv_lhs => rw [hdec]
        rw [listWidth_append]
      have h2 : lineB.length = (trimRightFunc goIsSpace lineB).length + d.length := by
        conv_lhs => rw [hdec]
        rw [List.length_append]
      rw [h1, h2] at hlineW
      push_cast at hlineW ⊢
      omega
    have htChars : ∀ c ∈ trimRightFunc goIsSpace lineB, spaceCharOk c := by
      intro c hc
      exact hlineChars c (by rw [hdec]; simp [hc])
    have htNoNL : ∀ c ∈ trimRightFunc goIsSpace lineB, c ≠ '\n' :=
      fun c hc => spaceCharOk_ne_nl c (htChars c hc)
    have htBL : (listWidth (trimRightFunc goIsSpace lineB) : Int) ≤
        (byteLen (trimRightFunc goIsSpace lineB) : Int) := by
      exact_mod_cast listWidth_le_byteLen _
    simp only [WrapStateMachine.writeLine, reduceIte]
    refine ⟨⟨?_, ?_, ?_, ?_, ?_, ?_, ?_, ?_, ?_, ?_, ?_⟩, _, rfl, rfl, rfl⟩
    · exact hwordW
    · exact le_refl 0
    · simp [listWidth]
    · exact le_refl 0
    · intro c hc; simp at hc
    · exact hwordChars
    · intro r hr
      rw [List.mem_append] at hr
      rcases hr with hr | hr
      · exact hrecsOk r hr
      · rw [List.mem_singleton] at hr
        subst hr
        simp only [recordOffsetsOk, Positions.endByte, Positions.endRune,
          Positions.endCalc, byteLen_append, List.length_append,
          Bool.and_eq_true, decide_eq_true_eq]
        have hbt : 0 ≤ btoi hb := by
          cases hb <;> simp [btoi]
        have hnl1 : byteLen ['\n'] = 1 := by decide
        have hnl2 : (['\n'] : List Char).length = 1 := rfl
        constructor
        · have := htBL
          push_cast
          omega
        · push_cast
          omega
    · exact (contiguousFrom_append_one lines _ 0 0 hchain hstartEnds).1
    · exact (contiguousFrom_append_one lines _ 0 0 hchain hstartEnds).2
    · rw [countNL_append, countNL_append, countNL_eq_zero _ htNoNL, hnlCount]
      simp [countNL]
    · right
      rw [← List.append_assoc, List.getLast?_concat]
  | «false» =>
    have htNoNL : ∀ c ∈ lineB, c ≠ '\n' :=
      fun c hc => spaceCharOk_ne_nl c (hlineChars c hc)
    simp only [WrapStateMachine.writeLine, Bool.false_eq_true, if_false]
    refine ⟨⟨?_, ?_, ?_, ?_, ?_, ?_, ?_, ?_, ?_, ?_, ?_⟩, _, rfl, rfl, rfl⟩
    · exact hwordW
    · exact le_refl 0
    · simp [listWidth]
    · exact le_refl 0
    · intro c hc; simp at hc
    · exact hwordChars
    · intro r hr
      rw [List.mem_append] at hr
      rcases hr with hr | hr
      · exact hrecsOk r hr
      · rw [List.mem_singleton] at hr
        subst hr
        simp only [recordOffsetsOk, Positions.endByte, Positions.endRune,
          Positions.endCalc, byteLen_append, List.length_append,
          Bool.and_eq_true, decide_eq_true_eq]
        have hbt : 0 ≤ btoi hb := by
          cases hb <;> simp [btoi]
        have hnl1 : byteLen ['\n'] = 1 := by decide
        have hnl2 : (['\n'] : List Char).length = 1 := rfl
        constructor
        · push_cast
          omega
        · push_cast
          omega
    · exact (contiguousFrom_append_one lines _ 0 0 hchain hstartEnds).1
    · exact (contiguousFrom_append_one lines _ 0 0 hchain hstartEnds).2
    · rw [countNL_append, countNL_append, countNL_eq_zero _ htNoNL, hnlCount]
      simp [countNL]
    · right
      rw [← List.append_assoc, List.getLast?_concat]

theorem writeLine_inv (w : WrapStateMachine) (hb es : Bool) (hinv : MachInv w) :
    MachInv (w.writeLine hb es) := (writeLine_spec w hb es hinv).1

theorem writeSoftLine_inv (w : WrapStateMachine) (es : Bool) (hinv : MachInv w) :
    MachInv (w.writeSoftLine es) := writeLine_inv w false es hinv

theorem writeWord_inv (w : WrapStateMachine) (hinv : MachInv w) :
    MachInv w.writeWord := by
  obtain ⟨hwordW, hlineNonneg, hlineW, htimmedNonneg, hlineChars, hwordChars,
    hrecsOk, hchain, hstartEnds, hnlCount, hbufEnds⟩ := hinv
  refine ⟨?_, ?_, ?_, htimmedNonneg, ?_, ?_, hrecsOk, hchain, hstartEnds, hnlCount, hbufEnds⟩
  · simp [WrapStateMachine.writeWord, listWidth]
  · simp only [WrapStateMachine.writeWord]
    have : (0 : Int) ≤ (listWidth w.wordBuffer : Int) := by positivity
    omega
  · simp only [WrapStateMachine.writeWord, listWidth_append, List.length_append]
    push_cast
    rw [hwordW] at *
    push_cast at hlineW ⊢
    omega
  · intro c hc
    simp only [WrapStateMachine.writeWord, List.mem_append] at hc
    rcases hc with hc | hc
    · exact hlineChars c hc
    · exact hwordChars c hc
  · intro c hc
    simp only [WrapStateMachine.writeWord] at hc
    simp at hc

theorem flushLineBuffer_inv (w : WrapStateMachine) (n : Int) (hinv : MachInv w) :
    MachInv (w.flushLineBuffer n) := by
  rw [WrapStateMachine.flushLineBuffer]
  split
  · exact writeSoftLine_inv w false hinv
  · exact hinv

theorem writeSpaceToLine_inv (w : WrapStateMachine) (hinv : MachInv w) :
    MachInv (w.writeSpaceToLine ' ') := by
  have hf := flushLineBuffer_inv w 1 hinv
  obtain ⟨hwordW, hlineNonneg, hlineW, htimmedNonneg, hlineChars, hwordChars,
    hrecsOk, hchain, hstartEnds, hnlCount, hbufEnds⟩ := hf
  rw [WrapStateMachine.writeSpaceToLine]
  split
  · refine ⟨hwordW, ?_, ?_, htimmedNonneg, ?_, hwordChars, hrecsOk, hchain,
      hstartEnds, hnlCount, hbufEnds⟩
    · simp only
      omega
    · simp only [listWidth_append, List.length_append]
      have h1 : listWidth [' '] = 1 := by decide
      rw [h1]
      push_cast
      push_cast at hlineW
      omega
    · intro c hc
      rw [List.mem_append] at hc
      rcases hc with hc | hc
      · exact hlineChars c hc
      · rw [List.mem_singleton] at hc
        subst hc
        intro _
        left
        rfl
  · exact ⟨hwordW, hlineNonneg, hlineW, by simp only; omega, hlineChars,
      hwordChars, hrecsOk, hchain, hstartEnds, hnlCount, hbufEnds⟩


theorem writeLine_config (w : WrapStateMachine) (hb es : Bool) :
    (w.writeLine hb es).config = w.config := rfl

theorem flushLineBuffer_config (w : WrapStateMachine) (n : Int) :
    (w.flushLineBuffer n).config = w.config := by
  rw [WrapStateMachine.flushLineBuffer]
  split <;> rfl

theorem goIsSpace_false_of_range (c : Char) (h1 : 0x21 ≤ c.toNat)
    (h2 : c.toNat ≤ 0x7A) : goIsSpace c = false := by
  rw [Bool.eq_false_iff]
  intro h
  simp only [goIsSpace, Bool.or_eq_true, Bool.and_eq_true, decide_eq_true_eq,
    beq_iff_eq] at h
  omega

theorem runeWidth_le_one (c : Char) (h : c.toNat < 0x1100) : runeWidth c ≤ 1 := by
  unfold runeWidth
  dsimp only
  split
  · omega
  · split
    · omega
    · split
      · next hw => exact absurd (isWideRune_ge c.toNat hw) (by omega)
      · omega

theorem listWidth_le_length (l : List Char) (h : ∀ c ∈ l, runeWidth c ≤ 1) :
    listWidth l ≤ l.length := by
  induction l with
  | nil => simp [listWidth]
  | cons c rest ih =>
    have h1 := h c (by simp)
    have h2 := ih (fun x hx => h x (by simp [hx]))
    simp only [listWidth, List.map_cons, List.sum_cons, List.length_cons] at *
    omega

theorem posFields_inv (m : WrapStateMachine) (x y : Int) (hm : MachInv m) :
    MachInv { m with pos :=
      { m.pos with origLineNum := x, origLineSegment := y } } := by
  obtain ⟨h1, h2, h3, h4, h5, h6, h7, h8, h9, h10, h11⟩ := hm
  exact ⟨h1, h2, h3, h4, h5, h6, h7, h8, h9, h10, h11⟩

theorem timmedBump_inv (m : WrapStateMachine) (hm : MachInv m) :
    MachInv { m with pos :=
      { m.pos with timmedWhiteSpace := m.pos.timmedWhiteSpace + 1 } } := by
  obtain ⟨h1, h2, h3, h4, h5, h6, h7, h8, h9, h10, h11⟩ := hm
  exact ⟨h1, h2, h3, by simp only; omega, h5, h6, h7, h8, h9, h10, h11⟩

theorem padSpaces_inv (m : WrapStateMachine) (k : Int) (hm : MachInv m) (hk : 0 ≤ k) :
    MachInv { m with lineBuffer := m.lineBuffer ++ repeatSpace k,
                     pos := { m.pos with
                       curLineWidth := m.pos.curLineWidth + k } } := by
  obtain ⟨h1, h2, h3, h4, h5, h6, h7, h8, h9, h10, h11⟩ := hm
  have hrw : listWidth (repeatSpace k) = k.toNat := by
    have hone : runeWidth ' ' = 1 := by decide
    rw [repeatSpace, listWidth]
    simp [List.map_replicate, hone]
  have hrl : (repeatSpace k).length = k.toNat := by
    simp [repeatSpace]
  refine ⟨h1, by simp only; omega, ?_, h4, ?_, h6, h7, h8, h9, h10, h11⟩
  · simp only [listWidth_append, List.length_append, hrw, hrl]
    push_cast
    push_cast at h3
    omega
  · intro c hc
    rw [List.mem_append] at hc
    rcases hc with hc | hc
    · exact h5 c hc
    · rw [repeatSpace, List.mem_replicate] at hc
      rw [hc.2]
      intro _
      left
      rfl

theorem tabStep_inv (w1 : WrapStateMachine) (hinv : MachInv w1)
    (htab : 0 < w1.config.tabSize) :
    MachInv { (w1.writeTabToLine).2 with pos :=
      { (w1.writeTabToLine).2.pos with
        curLineWidth := (w1.writeTabToLine).2.pos.curLineWidth +
          (w1.writeTabToLine).1 } } := by
  have hadj : 0 < w1.config.tabSize - w1.pos.curLineWidth % w1.config.tabSize := by
    have := Int.emod_lt_of_pos w1.pos.curLineWidth htab
    omega
  have hM : MachInv (w1.flushLineBuffer
      (w1.config.tabSize - w1.pos.curLineWidth % w1.config.tabSize)) :=
    flushLineBuffer_inv w1 _ hinv
  rw [WrapStateMachine.writeTabToLine]
  dsimp only
  split
  · split
    · exact padSpaces_inv _ 0 (timmedBump_inv _ hM) le_rfl
    · next htr =>
      refine padSpaces_inv _ _ hM ?_
      rw [flushLineBuffer_config]
      omega
  · exact padSpaces_inv _ _ hM (by omega)


theorem nbspStep_inv (w : WrapStateMachine) (hinv : MachInv w) :
    MachInv { w with
        wordHasNbsp := true
        wordBuffer := w.wordBuffer ++ [nbspChar]
        pos := { w.pos with curWordWidth := w.pos.curWordWidth + 1 } } := by
  obtain ⟨h1, h2, h3, h4, h5, h6, h7, h8, h9, h10, h11⟩ := hinv
  refine ⟨?_, h2, h3, h4, h5, ?_, h7, h8, h9, h10, h11⟩
  · have hone : listWidth [nbspChar] = 1 := by decide
    simp only
    rw [listWidth_append, hone, h1]
    push_cast
    ring
  · intro c hc
    rw [List.mem_append] at hc
    rcases hc with hc | hc
    · exact h6 c hc
    · rw [List.mem_singleton] at hc
      subst hc
      intro _
      right
      rfl

theorem clusterStep_inv (w : WrapStateMachine) (c : Char)
    (hc : goIsSpace c = false) (hinv : MachInv w) :
    MachInv { w with
        wordBuffer := w.wordBuffer ++ [c]
        pos := { w.pos with
          curWordWidth := w.pos.curWordWidth + (runeWidth c : Int) } } := by
  obtain ⟨h1, h2, h3, h4, h5, h6, h7, h8, h9, h10, h11⟩ := hinv
  refine ⟨?_, h2, h3, h4, h5, ?_, h7, h8, h9, h10, h11⟩
  · have hone : listWidth [c] = runeWidth c := by simp [listWidth]
    simp only
    rw [listWidth_append, hone, h1]
    push_cast
    ring
  · intro x hx
    rw [List.mem_append] at hx
    rcases hx with hx | hx
    · exact h6 x hx
    · rw [List.mem_singleton] at hx
      subst hx
      intro hsp
      rw [hc] at hsp
      exact absurd hsp (by simp)

theorem writeANSIToLine_inv (w : WrapStateMachine) (s : List Char)
    (hs : ∀ c ∈ s, ansiCharOk c) (hinv : MachInv w) :
    MachInv (w.writeANSIToLine s) := by
  obtain ⟨h1, h2, h3, h4, h5, h6, h7, h8, h9, h10, h11⟩ := hinv
  rw [WrapStateMachine.writeANSIToLine]
  refine ⟨h1, h2, ?_, h4, ?_, h6, h7, h8, h9, h10, h11⟩
  · have hw : listWidth s ≤ s.length :=
      listWidth_le_length s (fun c hc => (hs c hc).2)
    simp only [listWidth_append, List.length_append]
    push_cast
    push_cast at h3
    omega
  · intro c hc
    rw [List.mem_append] at hc
    rcases hc with hc | hc
    · exact h5 c hc
    · intro hsp
      exact absurd hsp (by rw [(hs c hc).1]; simp)

theorem ansiScanParams_chars (l : List Char) :
    ∀ ps f r, ansiScanParams l = some (ps, f, r) →
    (∀ c ∈ ps, (('0' ≤ c ∧ c ≤ '9') ∨ c = ';')) ∧
    (('a' ≤ f ∧ f ≤ 'z') ∨ ('A' ≤ f ∧ f ≤ 'Z')) := by
  induction l with
  | nil => intro ps f r h; simp [ansiScanParams] at h
  | cons c rest ih =>
    intro ps f r h
    rw [ansiScanParams] at h
    split at h
    · cases hrec : ansiScanParams rest with
      | none => rw [hrec] at h; exact Option.noConfusion h
      | some pfr =>
        rw [hrec] at h
        simp only [Option.some.injEq, Prod.mk.injEq] at h
        obtain ⟨hps, hf, hr⟩ := h
        subst hps hf hr
        obtain ⟨hps', hf'⟩ := ih pfr.1 pfr.2.1 pfr.2.2 (by simpa using hrec)
        refine ⟨?_, hf'⟩
        intro x hx
        rw [List.mem_cons] at hx
        rcases hx with hx | hx
        · subst hx; assumption
        · exact hps' x hx
    · split at h
      · simp only [Option.some.injEq, Prod.mk.injEq] at h
        obtain ⟨hps, hf, hr⟩ := h
        subst hps hf hr
        exact ⟨by intro x hx; simp at hx, by assumption⟩
      · exact Option.noConfusion h

theorem char_le_toNat {a b : Char} (h : a ≤ b) : a.toNat ≤ b.toNat := h

theorem ansiSplitOne_chars (l s r : List Char)
    (h : ansiSplitOne l = some (s, r)) : ∀ c ∈ s, ansiCharOk c := by
  match l with
  | [] => rw [ansiSplitOne_nil] at h; exact Option.noConfusion h
  | [c1] => rw [ansiSplitOne_single] at h; exact Option.noConfusion h
  | c1 :: c2 :: rest =>
    rw [ansiSplitOne_cons] at h
    split at h
    · next hcc =>
      obtain ⟨hc1, hc2⟩ := hcc
      subst hc1 hc2
      cases hps : ansiScanParams rest with
      | none => rw [hps] at h; exact Option.noConfusion h
      | some pfr =>
        rw [hps] at h
        simp only [Option.some.injEq, Prod.mk.injEq] at h
        obtain ⟨hs, hr⟩ := h
        subst hs hr
        obtain ⟨hps', hf'⟩ := ansiScanParams_chars rest pfr.1 pfr.2.1 pfr.2.2
          (by simpa using hps)
        intro c hc
        simp only [List.mem_cons, List.mem_append, List.mem_singleton] at hc
        rcases hc with (hc | hc | hc) | hc
        · subst hc; exact ⟨by decide, by decide⟩
        · subst hc; exact ⟨by decide, by decide⟩
        · have hmem := hps' c hc
          have hlo : 0x21 ≤ c.toNat ∧ c.toNat ≤ 0x7A := by
            rcases hmem with ⟨hl, hr2⟩ | hsemi
            · have ht1 := char_le_toNat hl
              have ht2 := char_le_toNat hr2
              constructor
              · exact le_trans (by decide) ht1
              · exact le_trans ht2 (by decide)
            · subst hsemi
              exact ⟨by decide, by decide⟩
          exact ⟨goIsSpace_false_of_range c hlo.1 hlo.2,
            runeWidth_le_one c (by omega)⟩
        · rcases hc with hc | hc
          · subst hc
            have hlo : 0x21 ≤ pfr.2.1.toNat ∧ pfr.2.1.toNat ≤ 0x7A := by
              rcases hf' with ⟨hl, hr2⟩ | ⟨hl, hr2⟩ <;>
                (have ht1 := char_le_toNat hl
                 have ht2 := char_le_toNat hr2
                 exact ⟨le_trans (by decide) ht1, le_trans ht2 (by decide)⟩)
            exact ⟨goIsSpace_false_of_range pfr.2.1 hlo.1 hlo.2,
              runeWidth_le_one pfr.2.1 (by omega)⟩
          · simp at hc
    · exact Option.noConfusion h

theorem ansiRunAux_chars (n : Nat) :
    ∀ l, ∀ c ∈ (ansiRunAux n l).1, ansiCharOk c := by
  induction n with
  | zero => intro l c hc; simp [ansiRunAux] at hc
  | succ n ih =>
    intro l c hc
    cases hs : ansiSplitOne l with
    | none => rw [ansiRunAux_succ_none n l hs] at hc; simp at hc
    | some sr =>
      obtain ⟨s, r⟩ := sr
      rw [ansiRunAux_succ_some n l s r hs] at hc
      dsimp only at hc
      rw [List.mem_append] at hc
      rcases hc with hc | hc
      · exact ansiSplitOne_chars l s r hs c hc
      · exact ih r c hc

theorem ansiRun_chars (l : List Char) : ∀ c ∈ (ansiRun l).1, ansiCharOk c :=
  ansiRunAux_chars l.length l


theorem nbspFlag_inv (m : WrapStateMachine) (b : Bool) (hm : MachInv m) :
    MachInv { m with wordHasNbsp := b } := by
  obtain ⟨h1, h2, h3, h4, h5, h6, h7, h8, h9, h10, h11⟩ := hm
  exact ⟨h1, h2, h3, h4, h5, h6, h7, h8, h9, h10, h11⟩

theorem wordReplace_inv (m : WrapStateMachine) (l : List Char)
    (hsub : ∀ c ∈ l, spaceCharOk c) (hm : MachInv m) :
    MachInv { m with
      wordBuffer := l
      pos := { m.pos with curWordWidth := (listWidth l : Int) } } := by
  obtain ⟨h1, h2, h3, h4, h5, h6, h7, h8, h9, h10, h11⟩ := hm
  exact ⟨rfl, h2, h3, h4, h5, hsub, h7, h8, h9, h10, h11⟩

theorem splitPush_inv (w : WrapStateMachine) (hinv : MachInv w)
    (g : GraphemeWordIter)
    (hg : g = graphemeIterLoop w.pos.curLineWidth w.config.limit
      (uniGraphemes w.wordBuffer) {}) :
    MachInv { w with
      lineBuffer := w.lineBuffer ++ g.subWordBuffer ++
        (if g.needsHyphen then ['-'] else [])
      pos := { w.pos with
        curLineWidth := w.pos.curLineWidth + g.subWordWidth } } := by
  obtain ⟨h1, h2, h3, h4, h5, h6, h7, h8, h9, h10, h11⟩ := hinv
  have hgw : g.subWordWidth =
      (listWidth g.subWordBuffer : Int) + (listWidth g.cluster : Int) := by
    rw [hg]
    exact graphemeIterLoop_width _ _ _ _ (by simp [listWidth])
  have hgm : (∀ c ∈ g.subWordBuffer, spaceCharOk c) ∧
      (∀ c ∈ g.cluster, spaceCharOk c) := by
    rw [hg]
    refine graphemeIterLoop_mem spaceCharOk _ _ _ ?_ _ ?_ ?_
    · intro cl hcl c hc
      rw [uniGraphemes, List.mem_map] at hcl
      obtain ⟨x, hx, hxe⟩ := hcl
      subst hxe
      rw [List.mem_singleton] at hc
      subst hc
      exact h6 _ hx
    · intro c hc; simp at hc
    · intro c hc; simp at hc
  have hyphW : listWidth (if g.needsHyphen then ['-'] else []) ≤
      (if g.needsHyphen then ['-'] else ([] : List Char)).length := by
    split <;> decide
  refine ⟨h1, ?_, ?_, h4, ?_, h6, h7, h8, h9, h10, h11⟩
  · simp only
    omega
  · simp only [listWidth_append, List.length_append]
    push_cast
    push_cast at h3 hgw hyphW
    omega
  · intro c hc
    simp only [List.mem_append] at hc
    rcases hc with (hc | hc) | hc
    · exact h5 c hc
    · exact hgm.1 c hc
    · intro hsp
      exfalso
      revert hc
      split
      · intro hc
        rw [List.mem_singleton] at hc
        subst hc
        exact absurd hsp (by decide)
      · intro hc; simp at hc

theorem flushWordBufferF_inv (n : Nat) : ∀ (w w' : WrapStateMachine),
    MachInv w → flushWordBufferF n w = some w' → MachInv w' := by
  induction n with
  | zero => intro w w' _ h; exact Option.noConfusion h
  | succ n ih =>
    intro w w' hinv h
    rw [flushWordBufferF] at h
    split at h
    · cases h
      exact writeSoftLine_inv w false hinv
    · split at h
      · split at h
        · dsimp only at h
          split at h
          · exact Option.noConfusion h
          · next w5 hrec =>
            cases h
            refine nbspFlag_inv _ false (ih _ w5 ?_ hrec)
            refine wordReplace_inv _ _ ?_
              (writeSoftLine_inv _ _ (splitPush_inv w hinv _ rfl))
            intro c hc
            exact hinv.wordChars c (dropBytesList_subset _ _ c hc)
        · cases h
          refine nbspFlag_inv _ false (writeWord_inv _ ?_)
          split
          · exact writeSoftLine_inv w false hinv
          · exact hinv
      · cases h
        exact nbspFlag_inv _ false (writeWord_inv _ hinv)

theorem writeSpaceToLine_config (w : WrapStateMachine) (r : Char) :
    (w.writeSpaceToLine r).config = w.config := by
  rw [WrapStateMachine.writeSpaceToLine]
  split
  · exact flushLineBuffer_config w 1
  · exact flushLineBuffer_config w 1

theorem writeTabToLine_config (w : WrapStateMachine) :
    (w.writeTabToLine).2.config = w.config := by
  rw [WrapStateMachine.writeTabToLine]
  dsimp only
  split
  · split
    · exact flushLineBuffer_config w _
    · exact flushLineBuffer_config w _
  · exact flushLineBuffer_config w _

theorem flushWordBufferF_config (n : Nat) : ∀ (w w' : WrapStateMachine),
    flushWordBufferF n w = some w' → w'.config = w.config := by
  induction n with
  | zero => intro w w' h; exact Option.noConfusion h
  | succ n ih =>
    intro w w' h
    rw [flushWordBufferF] at h
    split at h
    · cases h
      rfl
    · split at h
      · split at h
        · dsimp only at h
          split at h
          · exact Option.noConfusion h
          · next w5 hrec =>
            cases h
            have hc5 := ih _ w5 hrec
            exact hc5.trans rfl
        · cases h
          split
          · rfl
          · rfl
      · cases h
        rfl

/-- The scan loop preserves the machine invariant: a positive tab size
is carried along because every operation leaves the configuration
untouched. -/
theorem wrapLoop_inv (fuel : Nat) : ∀ (steps : Nat) (l : List Char)
    (w w' : WrapStateMachine), MachInv w → 0 < w.config.tabSize →
    wrapLoop fuel steps l w = some w' → MachInv w' := by
  intro steps
  induction steps with
  | zero =>
    intro l w w' hinv htab h
    match l with
    | [] =>
      rw [wrapLoop] at h
      cases h
      exact hinv
    | _ :: _ =>
      rw [wrapLoop] at h
      exact Option.noConfusion h
  | succ steps ih =>
    intro l w w' hinv htab h
    match l with
    | [] =>
      rw [wrapLoop] at h
      cases h
      exact hinv
    | c :: rest =>
      rw [wrapLoop] at h
      dsimp only at h
      split at h
      · split at h
        · next hc =>
          subst hc
          exact ih rest _ w' (nbspStep_inv w hinv) htab h
        · split at h
          · split at h
            · exact Option.noConfusion h
            · next w1 hflush =>
              have hinv1 : MachInv w1 := flushWordBufferF_inv fuel w w1 hinv hflush
              have htab1 : 0 < w1.config.tabSize := by
                rw [flushWordBufferF_config fuel w w1 hflush]
                exact htab
              split at h
              · next hc =>
                subst hc
                refine ih rest _ w' (writeSpaceToLine_inv w1 hinv1) ?_ h
                rw [writeSpaceToLine_config]
                exact htab1
              · split at h
                · exact ih rest _ w'
                    (posFields_inv _ _ _ (writeLine_inv w1 true false hinv1))
                    htab1 h
                · split at h
                  · refine ih rest _ w' (tabStep_inv w1 hinv1 htab1) ?_ h
                    dsimp only
                    rw [writeTabToLine_config]
                    exact htab1
                  · exact ih rest w1 w' hinv1 htab1 h
          · next hsp =>
            refine ih rest _ w' (clusterStep_inv w c ?_ hinv) htab h
            exact Bool.eq_false_iff.mpr hsp
      · split at h
        · exact Option.noConfusion h
        · next w1 hflush =>
          have hinv1 : MachInv w1 := flushWordBufferF_inv fuel w w1 hinv hflush
          have htab1 : 0 < w1.config.tabSize := by
            rw [flushWordBufferF_config fuel w w1 hflush]
            exact htab
          exact ih (ansiRun (c :: rest)).2 _ w'
            (writeANSIToLine_inv w1 _ (ansiRun_chars _) hinv1) htab1 h

/-- The fresh machine built by `stringWrap` satisfies the invariant. -/
theorem initMachine_inv (limit tabSize : Int) (trimWhitespace splitWord : Bool) :
    MachInv (initMachine limit tabSize trimWhitespace splitWord) := by
  refine ⟨rfl, le_refl 0, ?_, le_refl 0, ?_, ?_, ?_, rfl, rfl, rfl, Or.inl rfl⟩
  · simp [initMachine, listWidth]
  · intro c hc; simp [initMachine] at hc
  · intro c hc; simp [initMachine] at hc
  · intro r hr; simp [initMachine] at hr

/-- The pre-correction machine of a run satisfies the invariant. -/
theorem scanMachine_inv (fuel : Nat) (str : String) (limit tabSize : Int)
    (trimWhitespace splitWord : Bool) (w2 : WrapStateMachine)
    (htab : 0 < tabSize)
    (h : scanMachine fuel str limit tabSize trimWhitespace splitWord = some w2) :
    MachInv w2 := by
  rw [scanMachine] at h
  split at h
  · exact Option.noConfusion h
  · next w hloop =>
    split at h
    · exact Option.noConfusion h
    · next w1 hflush =>
      cases h
      have hinv : MachInv w1 :=
        flushWordBufferF_inv fuel w w1
          (wrapLoop_inv fuel str.data.length str.data _ w
            (initMachine_inv limit tabSize trimWhitespace splitWord) htab hloop)
          hflush
      split
      · exact writeSoftLine_inv w1 false hinv
      · exact hinv

/-! ### The output-shape correction -/

theorem setLastSegTrue_eq : ∀ (l : List WrappedString) (r : WrappedString),
    l.getLast? = some r →
    setLastSegTrue l = l.dropLast ++ [{ r with LastSegmentInOrig := true }] := by
  intro l
  induction l with
  | nil => intro r h; exact Option.noConfusion h
  | cons x xs ih =>
    intro r h
    cases xs with
    | nil =>
      simp only [List.getLast?_singleton, Option.some.injEq] at h
      subst h
      rfl
    | cons y ys =>
      rw [List.getLast?_cons_cons] at h
      show x :: setLastSegTrue (y :: ys) = _
      rw [ih r h]
      rfl

theorem setLastSegTrue_length (l : List WrappedString) :
    (setLastSegTrue l).length = l.length := by
  induction l with
  | nil => rfl
  | cons x xs ih =>
    cases xs with
    | nil => rfl
    | cons y ys =>
      show (x :: setLastSegTrue (y :: ys)).length = _
      simp only [List.length_cons, ih]

theorem setLastSegTrue_contiguous : ∀ (l : List WrappedString) (sb sr : Int),
    contiguousFrom sb sr (setLastSegTrue l) = contiguousFrom sb sr l := by
  intro l
  induction l with
  | nil => intro sb sr; rfl
  | cons x xs ih =>
    intro sb sr
    cases xs with
    | nil => rfl
    | cons y ys =>
      show contiguousFrom sb sr (x :: setLastSegTrue (y :: ys)) = _
      rw [contiguousFrom, contiguousFrom, ih]

theorem setLastSegTrue_recsOk (l : List WrappedString) :
    (∀ r ∈ l, recordOffsetsOk r = true) →
    ∀ r ∈ setLastSegTrue l, recordOffsetsOk r = true := by
  induction l with
  | nil => intro _ r hr; exact absurd hr (List.not_mem_nil r)
  | cons x xs ih =>
    intro h
    cases xs with
    | nil =>
      intro r hr
      have hr' : r ∈ [{ x with LastSegmentInOrig := true }] := hr
      rw [List.mem_singleton] at hr'
      subst hr'
      exact h x (List.mem_cons_self x [])
    | cons y ys =>
      intro r hr
      have hr' : r ∈ (x :: setLastSegTrue (y :: ys)) := hr
      rcases List.mem_cons.mp hr' with he | hm
      · rw [he]
        exact h x (List.mem_cons_self x (y :: ys))
      · exact ih (fun s hs => h s (List.mem_cons_of_mem x hs)) r hm

theorem getLast_setLastSegTrue (l : List WrappedString) (r : WrappedString)
    (h : l.getLast? = some r) :
    (setLastSegTrue l).getLast? = some { r with LastSegmentInOrig := true } := by
  rw [setLastSegTrue_eq l r h]
  exact List.getLast?_concat _

theorem countNL_dropLast (l : List Char) (h : l.getLast? = some '\n') :
    countNL l.dropLast + 1 = countNL l := by
  have hne : l ≠ [] := by
    intro he
    rw [he] at h
    exact Option.noConfusion h
  have hg : l.getLast hne = '\n' := by
    rw [List.getLast?_eq_getLast l hne, Option.some.injEq] at h
    exact h
  conv_rhs => rw [← List.dropLast_append_getLast hne]
  rw [hg, countNL_append]
  simp [countNL]

/-- Structure of a normal return: the pre-correction machine, the last
record it emitted, and how `outputCorrection` shapes the final text and
metadata in the hard-break and soft-break cases. -/
theorem stringWrapF_ok_struct (fuel : Nat) (str : String) (limit tabSize : Int)
    (trimWhitespace splitWord : Bool) (text : String) (seq : WrappedStringSeq)
    (h : stringWrapF fuel str limit tabSize trimWhitespace splitWord =
      some (WrapOutcome.ok text seq)) :
    ∃ w2 lastRec,
      scanMachine fuel str limit tabSize trimWhitespace splitWord = some w2 ∧
      w2.wrappedStringSeq.WrappedLines.getLast? = some lastRec ∧
      ((lastRec.IsHardBreak = true ∧ text = String.mk w2.buffer ∧
          seq = w2.wrappedStringSeq) ∨
        (lastRec.IsHardBreak = false ∧
          text = String.mk (truncLastByte w2.buffer) ∧
          seq = { w2.wrappedStringSeq with
            WrappedLines := setLastSegTrue w2.wrappedStringSeq.WrappedLines })) := by
  rw [stringWrapF] at h
  split at h
  · exact WrapOutcome.noConfusion (Option.some.inj h)
  · split at h
    · exact Option.noConfusion h
    · next w hloop =>
      rw [finishWrap] at h
      split at h
      · exact Option.noConfusion h
      · next w1 hflush =>
        have hscan : scanMachine fuel str limit tabSize trimWhitespace splitWord =
            some (if w1.lineBuffer.length > 0 then w1.writeSoftLine false else w1) := by
          simp only [scanMachine, hloop, hflush]
        have houtc := Option.some.inj h
        rw [outputCorrection] at houtc
        split at houtc
        · exact WrapOutcome.noConfusion houtc
        · next lastRec hlast =>
          split at houtc
          · next hhb =>
            cases houtc
            exact ⟨_, lastRec, hscan, hlast, Or.inl ⟨hhb, rfl, rfl⟩⟩
          · next hhb =>
            cases houtc
            exact ⟨_, lastRec, hscan, hlast,
              Or.inr ⟨Bool.eq_false_iff.mpr hhb, rfl, rfl⟩⟩

theorem buffer_last_nl (w2 : WrapStateMachine) (hinv : MachInv w2)
    (hne : w2.wrappedStringSeq.WrappedLines ≠ []) :
    w2.buffer.getLast? = some '\n' := by
  rcases hinv.bufEnds with hb | hb
  · exfalso
    have hnl := hinv.nlCount
    rw [hb] at hnl
    simp only [countNL, List.count_nil] at hnl
    exact hne (List.eq_nil_of_length_eq_zero hnl.symm)
  · exact hb

theorem ansiSplitOne_not_esc (c : Char) (l : List Char) (hc : c ≠ '\x1b') :
    ansiSplitOne (c :: l) = none := by
  match l with
  | [] => exact ansiSplitOne_single c
  | c2 :: rest =>
    rw [ansiSplitOne_cons]
    rw [if_neg (fun hcon => hc hcon.1)]

theorem ansiRun_not_esc (c : Char) (l : List Char) (hc : c ≠ '\x1b') :
    ansiRun (c :: l) = ([], c :: l) := by
  rw [ansiRun, List.length_cons]
  exact ansiRunAux_succ_none l.length (c :: l) (ansiSplitOne_not_esc c l hc)

theorem writeLine_shape (w : WrapStateMachine) (hb es : Bool) :
    (w.writeLine hb es).lineBuffer = [] ∧
    (w.writeLine hb es).wordBuffer = w.wordBuffer ∧
    ∃ ws, (w.writeLine hb es).wrappedStringSeq.WrappedLines =
        w.wrappedStringSeq.WrappedLines ++ [ws] ∧
      ws.EndsWithSplitWord = es ∧ ws.IsHardBreak = hb :=
  ⟨rfl, rfl, _, rfl, rfl, rfl⟩

/-! ### The universally-quantified claims -/

/-- C1 (corrected): a successful call always satisfies
`records = newlines-in-text + 1` only when the last record is a soft
break; in general the number of records equals the number of newlines
in the returned text, plus one exactly when the last record is not a
hard break (a trailing hard break keeps its newline). -/
theorem C1_record_count (fuel : Nat) (str : String) (limit tabSize : Int)
    (trimWhitespace splitWord : Bool) (text : String) (seq : WrappedStringSeq)
    (htab : 0 < tabSize)
    (h : stringWrapF fuel str limit tabSize trimWhitespace splitWord =
      some (WrapOutcome.ok text seq)) :
    seq.WrappedLines.length =
      countNL text.data + (if lastIsHard seq then 0 else 1) := by
  obtain ⟨w2, lastRec, hscan, hlast, hcase⟩ :=
    stringWrapF_ok_struct fuel str limit tabSize trimWhitespace splitWord text seq h
  have hinv := scanMachine_inv fuel str limit tabSize trimWhitespace splitWord w2
    htab hscan
  have hne : w2.wrappedStringSeq.WrappedLines ≠ [] := by
    intro he
    rw [he] at hlast
    exact Option.noConfusion hlast
  rcases hcase with ⟨hhb, htext, hseq⟩ | ⟨hhb, htext, hseq⟩
  · subst htext
    subst hseq
    have hlih : lastIsHard w2.wrappedStringSeq = true := by
      rw [lastIsHard, hlast]
      exact hhb
    have hite : (if lastIsHard w2.wrappedStringSeq then (0 : Nat) else 1) = 0 := by
      rw [hlih]
      rfl
    rw [hite]
    have hdata : (String.mk w2.buffer).data = w2.buffer := rfl
    rw [hdata, hinv.nlCount]
    rfl
  · subst htext
    subst hseq
    have hset := getLast_setLastSegTrue _ lastRec hlast
    have hlih : lastIsHard { w2.wrappedStringSeq with
        WrappedLines := setLastSegTrue w2.wrappedStringSeq.WrappedLines } = false := by
      rw [lastIsHard]
      dsimp only
      rw [hset]
      exact hhb
    have hite : (if lastIsHard { w2.wrappedStringSeq with
        WrappedLines := setLastSegTrue w2.wrappedStringSeq.WrappedLines } then (0 : Nat)
        else 1) = 1 := by
      rw [hlih]
      rfl
    rw [hite]
    have hbuf := buffer_last_nl w2 hinv hne
    have hdrop := countNL_dropLast w2.buffer hbuf
    have hnl := hinv.nlCount
    have hlen := setLastSegTrue_length w2.wrappedStringSeq.WrappedLines
    have htr : truncLastByte w2.buffer = w2.buffer.dropLast := rfl
    dsimp only
    rw [hlen, htr]
    omega

/-- C1 witness: on the concrete run of `"ab  "` at limit 2 the
corrected count identity holds (two records, one newline, soft last
record). -/
theorem C1_record_count_witness :
    seqC6.WrappedLines.length =
      countNL textC6.data + (if lastIsHard seqC6 then 0 else 1) :=
  C1_record_count 20 inputC6 2 4 true false textC6 seqC6 (by decide) rfl

/-- C3: a limit below 2 makes both entry points return the
`InvalidLimit` error before any processing, for every input and
configuration; with a limit of at least 2 the error is never
returned. -/
theorem C3_invalid_limit (fuel : Nat) (str : String) (limit tabSize : Int)
    (trimWhitespace splitWord : Bool) :
    (limit < 2 →
      StringWrap fuel str limit tabSize trimWhitespace =
        some WrapOutcome.invalidLimit ∧
      StringWrapSplit fuel str limit tabSize trimWhitespace =
        some WrapOutcome.invalidLimit) ∧
    (2 ≤ limit → ∀ r,
      stringWrapF fuel str limit tabSize trimWhitespace splitWord = some r →
      r ≠ WrapOutcome.invalidLimit) := by
  constructor
  · intro hlim
    constructor
    · rw [StringWrap, stringWrapF, if_pos hlim]
    · rw [StringWrapSplit, stringWrapF, if_pos hlim]
  · intro hlim r hr
    rw [stringWrapF, if_neg (by omega)] at hr
    split at hr
    · exact Option.noConfusion hr
    · rw [finishWrap] at hr
      split at hr
      · exact Option.noConfusion hr
      · have hout := Option.some.inj hr
        rw [← hout, outputCorrection]
        split
        · exact fun hcon => WrapOutcome.noConfusion hcon
        · split
          · exact fun hcon => WrapOutcome.noConfusion hcon
          · exact fun hcon => WrapOutcome.noConfusion hcon

/-- C3 witness: at limit 1 both entry points return the error on a
concrete input. -/
theorem C3_invalid_limit_witness :
    StringWrap 10 inputFox 1 4 true = some WrapOutcome.invalidLimit ∧
    StringWrapSplit 10 inputFox 1 4 true = some WrapOutcome.invalidLimit :=
  (C3_invalid_limit 10 inputFox 1 4 true false).1 (by decide)

/-- C5: a non-breaking space joins the word buffer as an ordinary rune
of width 1 and marks the word; a marked word is never mid-word split by
the flush — when it exceeds the remaining capacity the non-empty line
is finalized first (no record carries `EndsWithSplitWord`) and the word
then moves whole onto the fresh line, even when it alone exceeds the
limit. -/
theorem C5_nbsp_whole_word (n : Nat) (w : WrapStateMachine)
    (hnb : w.wordHasNbsp = true) (hw : w.pos.curWordWidth ≠ 0) :
    (∀ (fuel steps : Nat) (rest : List Char) (w0 : WrapStateMachine),
      wrapLoop fuel (steps + 1) (nbspChar :: rest) w0 =
        wrapLoop fuel steps rest
          { w0 with
              wordHasNbsp := true
              wordBuffer := w0.wordBuffer ++ [nbspChar]
              pos := { w0.pos with curWordWidth := w0.pos.curWordWidth + 1 } }) ∧
    runeWidth nbspChar = 1 ∧
    ∃ w', flushWordBufferF (n + 1) w = some w' ∧
      w'.wordBuffer = [] ∧
      (∃ pre, w'.lineBuffer = pre ++ w.wordBuffer) ∧
      ∃ recsNew, w'.wrappedStringSeq.WrappedLines =
          w.wrappedStringSeq.WrappedLines ++ recsNew ∧
        (∀ r ∈ recsNew, r.EndsWithSplitWord = false) ∧
        (w.pos.curWritePosition > w.config.limit → w.pos.curLineWidth > 0 →
          w'.lineBuffer = w.wordBuffer ∧ recsNew ≠ []) := by
  have hnzero : ¬(w.pos.curWritePosition > w.config.limit ∧
      w.pos.curWordWidth = 0) := fun hcon => hw hcon.2
  have hnsplit : ¬(w.config.splitWord = true ∧ w.wordHasNbsp = false) := by
    intro hcon
    rw [hnb] at hcon
    exact Bool.noConfusion hcon.2
  refine ⟨?_, by decide, ?_⟩
  · intro fuel steps rest w0
    have hrun : (ansiRun (nbspChar :: rest)).1 = [] := by
      rw [ansiRun_not_esc nbspChar rest (by decide)]
    rw [wrapLoop]
    dsimp only
    rw [if_pos hrun, if_pos rfl]
  · by_cases hex : w.pos.curWritePosition > w.config.limit
    · by_cases hlw : w.pos.curLineWidth > 0
      · obtain ⟨hlb, hwb, ws, hlines, hes, hhb⟩ := writeLine_shape w false false
        refine ⟨{ (w.writeSoftLine false).writeWord with wordHasNbsp := false },
          ?_, rfl, ⟨[], rfl⟩, [ws], ?_, ?_, ?_⟩
        · rw [flushWordBufferF]
          dsimp only
          rw [if_neg hnzero, if_pos hex, if_neg hnsplit, if_pos hlw]
        · exact hlines
        · intro r hr
          rw [List.mem_singleton] at hr
          rw [hr]
          exact hes
        · intro _ _
          exact ⟨List.nil_append _, by simp⟩
      · refine ⟨{ w.writeWord with wordHasNbsp := false }, ?_, rfl,
          ⟨w.lineBuffer, rfl⟩, [], ?_, ?_, ?_⟩
        · rw [flushWordBufferF]
          dsimp only
          rw [if_neg hnzero, if_pos hex, if_neg hnsplit, if_neg hlw]
        · exact (List.append_nil _).symm
        · intro r hr
          exact absurd hr (List.not_mem_nil r)
        · intro _ hcon
          exact absurd hcon hlw
    · refine ⟨{ w.writeWord with wordHasNbsp := false }, ?_, rfl,
        ⟨w.lineBuffer, rfl⟩, [], ?_, ?_, ?_⟩
      · rw [flushWordBufferF]
        dsimp only
        rw [if_neg hnzero, if_neg hex]
      · exact (List.append_nil _).symm
      · intro r hr
        exact absurd hr (List.not_mem_nil r)
      · intro hcon _
        exact absurd hcon hex

/-- C5 witness: the concrete marked word `b·c` (width 3, line width 1,
limit 2, splitting enabled) is flushed whole: the line is finalized
softly, no record is marked `EndsWithSplitWord`, and the whole word
becomes the fresh line. -/
theorem C5_nbsp_whole_word_witness :
    (∀ (fuel steps : Nat) (rest : List Char) (w0 : WrapStateMachine),
      wrapLoop fuel (steps + 1) (nbspChar :: rest) w0 =
        wrapLoop fuel steps rest
          { w0 with
              wordHasNbsp := true
              wordBuffer := w0.wordBuffer ++ [nbspChar]
              pos := { w0.pos with curWordWidth := w0.pos.curWordWidth + 1 } }) ∧
    runeWidth nbspChar = 1 ∧
    ∃ w', flushWordBufferF (2 + 1) machineC5 = some w' ∧
      w'.wordBuffer = [] ∧
      (∃ pre, w'.lineBuffer = pre ++ machineC5.wordBuffer) ∧
      ∃ recsNew, w'.wrappedStringSeq.WrappedLines =
          machineC5.wrappedStringSeq.WrappedLines ++ recsNew ∧
        (∀ r ∈ recsNew, r.EndsWithSplitWord = false) ∧
        (machineC5.pos.curWritePosition > machineC5.config.limit →
          machineC5.pos.curLineWidth > 0 →
          w'.lineBuffer = machineC5.wordBuffer ∧ recsNew ≠ []) :=
  C5_nbsp_whole_word 2 machineC5 rfl (by decide)

/-- C6 (corrected): when the last record is a hard break the returned
text does end with a newline, and when it is not, the correction
removes exactly the final newline of the pre-correction output and
marks that record `LastSegmentInOrig`; but the stated equivalence fails
in the other direction — the corrected text can still end with a
newline (see the counterexample). -/
theorem C6_trailing_newline (fuel : Nat) (str : String) (limit tabSize : Int)
    (trimWhitespace splitWord : Bool) (text : String) (seq : WrappedStringSeq)
    (htab : 0 < tabSize)
    (h : stringWrapF fuel str limit tabSize trimWhitespace splitWord =
      some (WrapOutcome.ok text seq)) :
    (lastIsHard seq = true → text.data.getLast? = some '\n') ∧
    (lastIsHard seq = false →
      (∃ w2, scanMachine fuel str limit tabSize trimWhitespace splitWord =
          some w2 ∧ text.data ++ ['\n'] = w2.buffer) ∧
      ∃ r, seq.WrappedLines.getLast? = some r ∧ r.LastSegmentInOrig = true) := by
  obtain ⟨w2, lastRec, hscan, hlast, hcase⟩ :=
    stringWrapF_ok_struct fuel str limit tabSize trimWhitespace splitWord text seq h
  have hinv := scanMachine_inv fuel str limit tabSize trimWhitespace splitWord w2
    htab hscan
  have hne : w2.wrappedStringSeq.WrappedLines ≠ [] := by
    intro he
    rw [he] at hlast
    exact Option.noConfusion hlast
  have hbuf := buffer_last_nl w2 hinv hne
  rcases hcase with ⟨hhb, htext, hseq⟩ | ⟨hhb, htext, hseq⟩
  · subst htext
    subst hseq
    have hlih : lastIsHard w2.wrappedStringSeq = true := by
      rw [lastIsHard, hlast]
      exact hhb
    constructor
    · intro _
      exact hbuf
    · intro hcon
      rw [hlih] at hcon
      exact absurd hcon (by decide)
  · subst htext
    subst hseq
    have hset := getLast_setLastSegTrue _ lastRec hlast
    have hlih : lastIsHard { w2.wrappedStringSeq with
        WrappedLines := setLastSegTrue w2.wrappedStringSeq.WrappedLines } = false := by
      rw [lastIsHard]
      dsimp only
      rw [hset]
      exact hhb
    constructor
    · intro hcon
      rw [hlih] at hcon
      exact absurd hcon (by decide)
    · intro _
      have hnenil : w2.buffer ≠ [] := by
        intro he
        rw [he] at hbuf
        exact Option.noConfusion hbuf
      have hg : w2.buffer.getLast hnenil = '\n' := by
        have hb2 := hbuf
        rw [List.getLast?_eq_getLast w2.buffer hnenil, Option.some.injEq] at hb2
        exact hb2
      refine ⟨⟨w2, hscan, ?_⟩,
        ⟨{ lastRec with LastSegmentInOrig := true }, ?_, rfl⟩⟩
      · show truncLastByte w2.buffer ++ ['\n'] = w2.buffer
        conv_rhs => rw [← List.dropLast_append_getLast hnenil]
        rw [hg]
        rfl
      · exact hset

/-- C6 witness: on `"a\n"` the last record is a hard break and the
text ends with a newline. -/
theorem C6_trailing_newline_witness :
    (lastIsHard seqC1 = true → inputC1.data.getLast? = some '\n') ∧
    (lastIsHard seqC1 = false →
      (∃ w2, scanMachine 10 inputC1 5 4 true false = some w2 ∧
        inputC1.data ++ ['\n'] = w2.buffer) ∧
      ∃ r, seqC1.WrappedLines.getLast? = some r ∧ r.LastSegmentInOrig = true) :=
  C6_trailing_newline 10 inputC1 5 4 true false inputC1 seqC1 (by decide) rfl

/-- C7: every record of a successful call has `Start ≤ End` in both
byte and rune offsets, and both offset intervals are non-decreasing
across successive records in scan order. -/
theorem C7_offsets (fuel : Nat) (str : String) (limit tabSize : Int)
    (trimWhitespace splitWord : Bool) (text : String) (seq : WrappedStringSeq)
    (htab : 0 < tabSize)
    (h : stringWrapF fuel str limit tabSize trimWhitespace splitWord =
      some (WrapOutcome.ok text seq)) :
    (∀ r ∈ seq.WrappedLines, recordOffsetsOk r = true) ∧
    offsetsMonotone seq.WrappedLines = true := by
  obtain ⟨w2, lastRec, hscan, hlast, hcase⟩ :=
    stringWrapF_ok_struct fuel str limit tabSize trimWhitespace splitWord text seq h
  have hinv := scanMachine_inv fuel str limit tabSize trimWhitespace splitWord w2
    htab hscan
  rcases hcase with ⟨_, _, hseq⟩ | ⟨_, _, hseq⟩
  · subst hseq
    exact ⟨hinv.recsOk, contiguousFrom_mono _ 0 0 hinv.chain hinv.recsOk⟩
  · subst hseq
    have hrecs := setLastSegTrue_recsOk _ hinv.recsOk
    have hcont : contiguousFrom 0 0
        (setLastSegTrue w2.wrappedStringSeq.WrappedLines) = true := by
      rw [setLastSegTrue_contiguous]
      exact hinv.chain
    exact ⟨hrecs, contiguousFrom_mono _ 0 0 hcont hrecs⟩

/-- C7 witness: the record offsets of the `"ab  "` run are well
ordered and monotone. -/
theorem C7_offsets_witness :
    (∀ r ∈ seqC6.WrappedLines, recordOffsetsOk r = true) ∧
    offsetsMonotone seqC6.WrappedLines = true :=
  C7_offsets 20 inputC6 2 4 true false textC6 seqC6 (by decide) rfl

/-- C8: the records of a successful call tile the original offsets:
the first starts at byte 0 and rune 0, and each subsequent record
starts exactly where the previous one ended, in both units. -/
theorem C8_contiguous (fuel : Nat) (str : String) (limit tabSize : Int)
    (trimWhitespace splitWord : Bool) (text : String) (seq : WrappedStringSeq)
    (htab : 0 < tabSize)
    (h : stringWrapF fuel str limit tabSize trimWhitespace splitWord =
      some (WrapOutcome.ok text seq)) :
    contiguousFrom 0 0 seq.WrappedLines = true := by
  obtain ⟨w2, lastRec, hscan, hlast, hcase⟩ :=
    stringWrapF_ok_struct fuel str limit tabSize trimWhitespace splitWord text seq h
  have hinv := scanMachine_inv fuel str limit tabSize trimWhitespace splitWord w2
    htab hscan
  rcases hcase with ⟨_, _, hseq⟩ | ⟨_, _, hseq⟩
  · subst hseq
    exact hinv.chain
  · subst hseq
    show contiguousFrom 0 0 (setLastSegTrue w2.wrappedStringSeq.WrappedLines) = true
    rw [setLastSegTrue_contiguous]
    exact hinv.chain

/-- C8 witness: the two records of the `"hello\tworld"` run tile the
offsets from zero. -/
theorem C8_contiguous_witness : contiguousFrom 0 0 seqC4.WrappedLines = true :=
  C8_contiguous 20 inputC4 7 4 true false textC4 seqC4 (by decide) rfl

end Stringwrap
